import Mathlib

/- Verification of the mkviewer document cache-and-index synchronization engine
   (src/app.py) against its natural-language specification.

   The Python source is shallowly embedded: pure functions become Lean
   functions, the mutable LRU cache and the Elasticsearch index become explicit
   state threaded through the operations, external capabilities (MinIO client,
   mammoth, textract, the text codecs of the Python runtime, the Elasticsearch
   client library) become record parameters, and Python exceptions become
   Except / explicit outcome types. -/

namespace MkViewer

/-! ### Fingerprint cache (class `LRU`, src/app.py lines 912-929)

The Python class stores an `OrderedDict` mapping keys to cached tuples.  We
model the ordered dict as an association list, oldest entry first, newest
entry last; `move_to_end` becomes erase-and-append.  The cache value type is
kept generic, as in the source. -/

/-- Decidable equality for `Except`, used to evaluate witnesses. -/
instance exceptDecEq {ε α : Type} [DecidableEq ε] [DecidableEq α] :
    DecidableEq (Except ε α) := fun a b =>
  match a, b with
  | .ok x, .ok y =>
    if h : x = y then isTrue (by rw [h]) else isFalse (by intro hh; cases hh; exact h rfl)
  | .error x, .error y =>
    if h : x = y then isTrue (by rw [h]) else isFalse (by intro hh; cases hh; exact h rfl)
  | .ok _, .error _ => isFalse (by intro hh; cases hh)
  | .error _, .ok _ => isFalse (by intro hh; cases hh)

/-- Entry cached by `get_document`: the tuple `(etag, doc_type, text, html, toc)`. -/
structure CacheVal where
  etag : String
  docType : String
  text : String
  html : String
  toc : String
deriving DecidableEq, Repr

/-- All entries of the ordered dict whose key differs from `k` (in order). -/
def eraseKey (od : List (String × α)) (k : String) : List (String × α) :=
  od.filter (fun p => ¬ p.1 = k)

/-- `od[k]` together with the `k in od` test: the value stored at `k`, if any. -/
def lookupKey (od : List (String × α)) (k : String) : Option α :=
  (od.find? (fun p => p.1 = k)).map (·.2)

/-- State of one `LRU` instance: capacity and the ordered dict. -/
structure LRUState (α : Type) where
  cap : Nat
  od : List (String × α)
deriving DecidableEq, Repr

/-- `LRU.get`: on a hit, `move_to_end` the entry and return its value; on a
miss return `None` (modelled as `none`) and leave the state unchanged. -/
def LRU.get (s : LRUState α) (k : String) : Option α × LRUState α :=
  match lookupKey s.od k with
  | some v => (some v, ⟨s.cap, eraseKey s.od k ++ [(k, v)]⟩)
  | none => (none, s)

/-- `LRU.set`: `od[k] = v` followed by `move_to_end(k)` nets out to
erase-then-append; then if the dict exceeds capacity, `popitem(last=False)`
drops the oldest (first) entry. -/
def LRU.set (s : LRUState α) (k : String) (v : α) : LRUState α :=
  if s.cap < (eraseKey s.od k ++ [(k, v)]).length then
    ⟨s.cap, (eraseKey s.od k ++ [(k, v)]).drop 1⟩
  else ⟨s.cap, eraseKey s.od k ++ [(k, v)]⟩

/-- `LRU.clear`: `self.od.clear()`.  The Python method body has no `return`
statement, so the call evaluates to `None`; the first component models that
returned value. -/
def LRU.clear (s : LRUState α) : Option Nat × LRUState α :=
  (none, ⟨s.cap, []⟩)

/-- The module-level cache `DOC_CACHE = LRU(512)`. -/
def DOC_CACHE0 : LRUState CacheVal := ⟨512, []⟩

/-- Shorthand cache value used in concrete examples. -/
def cv (n : Nat) : CacheVal := ⟨toString n, "markdown", "t", "h", ""⟩

/-- UI handler `_clear_cache` (src/app.py lines 1940-1943): reads the size of
the ordered dict, clears the cache, and reports the size in a status string. -/
def _clear_cache (s : LRUState CacheVal) : String × LRUState CacheVal :=
  let n := s.od.length
  ("<em>已清空文档缓存（" ++ toString n ++ " 项）</em>", (LRU.clear s).2)

/-- Run a sequence of `set` operations against the cache. -/
def runPuts (s : LRUState α) : List (String × α) → LRUState α
  | [] => s
  | (k, v) :: rest => runPuts (LRU.set s k v) rest

/-- Keys of an access sequence listed newest-access-first, keeping for every
key the value of its most recent access (first occurrence wins). -/
def dedupKeys : List (String × α) → List (String × α)
  | [] => []
  | (k, v) :: rest => (k, v) :: eraseKey (dedupKeys rest) k


/-! ### Document tree builder (`build_tree`, src/app.py lines 1032-1043)

The Python tree is a nested dict whose string keys live in one shared
namespace: a value is either a sub-directory dict, created by
`cur.setdefault(p, {})` for a non-final path segment `p`, or the `__files__`
list of storage keys, created by `cur.setdefault("__files__", []).append(key)`
at the final segment.  Because the files-list key `"__files__"` shares that
namespace with directory names, a path segment literally named `__files__` can
hand the loop a value of the wrong type: `.setdefault` called on a list, or
`.append` called on a dict, raises `AttributeError` which propagates out of
`build_tree`.  Insertion is therefore embedded as an `Except`-valued
function. -/

/-- A value of the tree dict: a sub-directory dict (entries in insertion
order) or a `__files__` list of storage keys. -/
inductive PyVal where
  | dict (entries : List (String × PyVal))
  | list (files : List String)

/-- A Python dict of the tree: association list in insertion order. -/
abbrev PyDict := List (String × PyVal)

/-- Dict lookup. -/
def getVal (d : PyDict) (k : String) : Option PyVal :=
  (d.find? (fun q => q.1 = k)).map (·.2)

/-- Writing slot `k` of a dict (`setdefault` plus in-place mutation of the
returned value): an existing key keeps its dict position, a new key is
appended at the end. -/
def putVal (d : PyDict) (k : String) (v : PyVal) : PyDict :=
  if (d.find? (fun q => q.1 = k)).isSome then
    d.map (fun q => if q.1 = k then (k, v) else q)
  else d ++ [(k, v)]

/-- Body of the `for i, p in enumerate(parts)` loop of `build_tree`.  At the
last segment `cur.setdefault("__files__", []).append(key)` appends the full
storage key to the `__files__` list — unless that slot already holds a
sub-directory dict, in which case `.append` on a dict raises
`AttributeError`.  At a non-final segment `cur = cur.setdefault(p, {})`
navigates or creates a sub-directory — unless slot `p` holds a `__files__`
list, in which case the next iteration's `.setdefault` call on that list
raises `AttributeError` (both loop branches begin with `cur.setdefault`). -/
def insertParts : PyDict → List String → String → Except String PyDict
  | d, [], _ => .ok d
  | d, [_], key =>
    match getVal d "__files__" with
    | some (.list fs) => .ok (putVal d "__files__" (.list (fs ++ [key])))
    | some (.dict _) => .error "AttributeError: 'dict' object has no attribute 'append'"
    | none => .ok (putVal d "__files__" (.list [key]))
  | d, p :: r1 :: r2, key =>
    match getVal d p with
    | some (.dict child) =>
      match insertParts child (r1 :: r2) key with
      | .ok child2 => .ok (putVal d p (.dict child2))
      | .error e => .error e
    | some (.list _) => .error "AttributeError: 'list' object has no attribute 'setdefault'"
    | none =>
      match insertParts [] (r1 :: r2) key with
      | .ok child2 => .ok (putVal d p (.dict child2))
      | .error e => .error e

/-- `rel.split("/")` (single-character separator semantics of `str.split`). -/
def splitSlash : List Char → List (List Char)
  | [] => [[]]
  | c :: rest =>
    if c = '/' then [] :: splitSlash rest
    else match splitSlash rest with
      | seg :: more => (c :: seg) :: more
      | [] => [[c]]

/-- `startswith` on character lists. -/
def listIsPre : List Char → List Char → Bool
  | [], _ => true
  | _ :: _, [] => false
  | a :: pa, b :: lb => a = b && listIsPre pa lb

/-- `key[len(base_prefix):] if base_prefix and key.startswith(base_prefix)
else key`, split on `/`, empty segments dropped. -/
def relParts (basePre key : String) : List String :=
  let rel := if ¬ basePre = "" ∧ listIsPre basePre.data key.data = true
    then key.data.drop basePre.length else key.data
  ((splitSlash rel).map (fun l => String.mk l)).filter (fun s => ¬ s = "")

/-- `build_tree(files, base_prefix)`: the insertion loop folded over the keys
in the error monad — an `AttributeError` raised inside the loop aborts and
propagates out of the function. -/
def build_tree (files : List String) (basePre : String) : Except String PyDict :=
  files.foldlM (fun t key => insertParts t (relParts basePre key) key) []

/-- Navigate a directory path (a slot holding a `__files__` list is not a
directory). -/
def dirAt : PyDict → List String → Option PyDict
  | d, [] => some d
  | d, p :: rest =>
    match getVal d p with
    | some (.dict child) => dirAt child rest
    | _ => none

/-- The `__files__` list of the directory at `path` (empty if absent or if
the slot holds a sub-directory dict). -/
def filesAt (d : PyDict) (path : List String) : List String :=
  match dirAt d path with
  | some u =>
    match getVal u "__files__" with
    | some (.list fs) => fs
    | _ => []
  | none => []

/-- Tree isomorphism in the sense of the spec: the same directory nodes exist
and each directory carries the same set of file entries. -/
def treeIso (t1 t2 : PyDict) : Prop :=
  ∀ path : List String, (dirAt t1 path).isSome = (dirAt t2 path).isSome ∧
    ∀ k : String, k ∈ filesAt t1 path ↔ k ∈ filesAt t2 path

/-- Well-formed tree dict: the `__files__` slot holds a list and every other
slot holds a well-formed sub-directory dict.  This is the invariant the
insertion loop preserves as long as no non-final path segment is named
`__files__`. -/
inductive WFdict : PyDict → Prop where
  | mk (d : PyDict)
      (hfiles : ∀ q ∈ d, q.1 = "__files__" → ∃ fs, q.2 = PyVal.list fs)
      (hdir : ∀ q ∈ d, ¬ q.1 = "__files__" → ∃ child, q.2 = PyVal.dict child)
      (hchild : ∀ q ∈ d, ∀ child, q.2 = PyVal.dict child → WFdict child) :
      WFdict d

/-! ### Image link rewriting (`rewrite_image_links` and `_to_public_image_url`,
src/app.py lines 866-895)

The two regex passes are embedded as explicit scanners over character lists;
each scanner consumes at least one character per step, so the input length
serves as structural fuel. -/

def IMG_EXTS : List String := [".png", ".jpg", ".jpeg", ".gif", ".webp", ".svg", ".bmp"]

/-- The whitespace characters stripped by Python `str.strip()` (ASCII range;
all inputs considered here are ASCII). -/
def isPySpace (c : Char) : Bool :=
  c = ' ' || c = '\t' || c = '\n' || c = '\r' || c = '\x0b' || c = '\x0c'

/-- Python `str.strip()`. -/
def pyStrip (l : List Char) : List Char :=
  ((l.dropWhile isPySpace).reverse.dropWhile isPySpace).reverse

/-- UTF-8 encoding of one character, as byte values. -/
def utf8BytesOfChar (c : Char) : List Nat :=
  let n := c.toNat
  if n < 128 then [n]
  else if n < 2048 then [192 + n / 64, 128 + n % 64]
  else if n < 65536 then [224 + n / 4096, 128 + (n / 64) % 64, 128 + n % 64]
  else [240 + n / 262144, 128 + (n / 4096) % 64, 128 + (n / 64) % 64, 128 + n % 64]

def hexDigitUpper (n : Nat) : Char :=
  if n < 10 then Char.ofNat (48 + n) else Char.ofNat (55 + n)

def pctEncodeByte (b : Nat) : List Char :=
  ['%', hexDigitUpper (b / 16), hexDigitUpper (b % 16)]

/-- Characters `urllib.parse.quote` leaves unencoded (default `safe="/"`). -/
def quoteSafe (c : Char) : Bool :=
  ('A' ≤ c && c ≤ 'Z') || ('a' ≤ c && c ≤ 'z') || ('0' ≤ c && c ≤ '9') ||
    c = '_' || c = '.' || c = '-' || c = '~' || c = '/'

/-- `urllib.parse.quote(seg)`. -/
def pyQuote (l : List Char) : List Char :=
  l.flatMap (fun c => if quoteSafe c then [c] else (utf8BytesOfChar c).flatMap pctEncodeByte)

def joinSlash : List (List Char) → List Char
  | [] => []
  | [s] => s
  | s :: rest => s ++ '/' :: joinSlash rest

/-- `_to_public_image_url` (src/app.py lines 866-869): strip whitespace, strip
leading `.`/`/` characters (`lstrip("./")` strips any leading character from
that set, then `lstrip("/")`), percent-encode each `/`-separated segment and
root at the public base with its trailing slashes removed. -/
def _to_public_image_url (base : String) (path : List Char) : List Char :=
  let p := ((pyStrip path).dropWhile (fun c => c = '.' || c = '/')).dropWhile (fun c => c = '/')
  let parts := splitSlash p
  (base.data.reverse.dropWhile (fun c => c = '/')).reverse ++ '/' :: joinSlash (parts.map pyQuote)

/-- `re.match(r"^https?://", url)`. -/
def isAbsUrl (u : List Char) : Bool :=
  listIsPre "http://".data u || listIsPre "https://".data u

/-- The rewrite condition of the Markdown pass: the lower-cased (stripped)
URL ends in a recognized image extension or starts with an images prefix. -/
def shouldRewriteMd (url : List Char) : Bool :=
  let low := url.map Char.toLower
  IMG_EXTS.any (fun e => listIsPre e.data.reverse low.reverse) ||
    (["images/", "./images/", "../images/"] : List String).any
      (fun p => listIsPre p.data low)

/-- The full text matched by `!\[([^\]]*)\]\(([^)]+)\)`. -/
def mdGroup0 (alt urlRaw : List Char) : List Char :=
  '!' :: '[' :: alt ++ ']' :: '(' :: urlRaw ++ [')']

/-- `repl_md`: the replacement decision for one matched Markdown image link. -/
def replMd (base : String) (alt urlRaw : List Char) : List Char :=
  let url := pyStrip urlRaw
  if isAbsUrl url then mdGroup0 alt urlRaw
  else if shouldRewriteMd url then
    '!' :: '[' :: alt ++ ']' :: '(' :: _to_public_image_url base url ++ [')']
  else mdGroup0 alt urlRaw

/-- Left-to-right non-overlapping substitution of the Markdown image pattern
(the `re.sub` scan), with fuel bounded by the input length. -/
def mdScanGo (base : String) : Nat → List Char → List Char
  | 0, l => l
  | _ + 1, [] => []
  | fuel + 1, c :: rest =>
    if c = '!' then
      match rest with
      | '[' :: r1 =>
        match r1.dropWhile (fun ch => ¬ ch = ']') with
        | ']' :: '(' :: r2 =>
          match r2.takeWhile (fun ch => ¬ ch = ')'), r2.dropWhile (fun ch => ¬ ch = ')') with
          | _ :: _, ')' :: r3 =>
            replMd base (r1.takeWhile (fun ch => ¬ ch = ']'))
                (r2.takeWhile (fun ch => ¬ ch = ')'))
              ++ mdScanGo base fuel r3
          | _, _ => c :: mdScanGo base fuel rest
        | _ => c :: mdScanGo base fuel rest
      | _ => c :: mdScanGo base fuel rest
    else c :: mdScanGo base fuel rest

/-- Case-insensitive character comparison (`re.IGNORECASE`). -/
def ciChar (a b : Char) : Bool := a.toLower = b.toLower

def ciIsPre : List Char → List Char → Bool
  | [], _ => true
  | _ :: _, [] => false
  | a :: pa, b :: lb => ciChar a b && ciIsPre pa lb

/-- Python `str.replace` (all non-overlapping occurrences, left to right). -/
def strReplaceGo (pat rep : List Char) : Nat → List Char → List Char
  | 0, l => l
  | _ + 1, [] => []
  | fuel + 1, c :: rest =>
    if listIsPre pat (c :: rest) && ¬ pat.isEmpty then
      rep ++ strReplaceGo pat rep fuel ((c :: rest).drop pat.length)
    else c :: strReplaceGo pat rep fuel rest

def strReplace (pat rep l : List Char) : List Char := strReplaceGo pat rep l.length l

/-- `repl_img`: absolute URLs keep the whole match; otherwise every occurrence
of the raw captured URL inside the match is replaced by the public URL. -/
def replImg (base : String) (g0 url : List Char) : List Char :=
  let u := pyStrip url
  if isAbsUrl u then g0 else strReplace url (_to_public_image_url base u) g0

/-- One backtracking attempt of `<img[^>]+src=QUOTE([^QUOTE]+)QUOTE` after the
literal `<img`: gap of `k` non-`>` characters, then `src=` and the quote, then
a non-empty quote-free group closed by the quote. -/
def imgSrcAt (q : Char) (r : List Char) (k : Nat) : Option (List Char) :=
  if 0 < k && k ≤ r.length && (r.take k).all (fun ch => ¬ ch = '>')
      && ciIsPre ("src=".data ++ [q]) (r.drop k) then
    let rest3 := r.drop (k + 5)
    let url := rest3.takeWhile (fun ch => ¬ ch = q)
    if ¬ url.isEmpty && (rest3.drop url.length).take 1 = [q] then some url else none
  else none

/-- The greedy `[^>]+` with backtracking: the largest gap length that lets the
rest of the pattern match. -/
def findImgK (q : Char) (r : List Char) : Option (Nat × List Char) :=
  (List.range (r.length + 1)).reverse.findSome? (fun k =>
    match imgSrcAt q r k with
    | some url => some (k, url)
    | none => none)

/-- The `re.sub` scan of the HTML `<img>` pattern (case-insensitive),
parameterized by the quote character (the source has one pass for `"` and one
for `'`). -/
def imgScanGo (base : String) (q : Char) : Nat → List Char → List Char
  | 0, l => l
  | _ + 1, [] => []
  | fuel + 1, c :: rest =>
    if ciIsPre "<img".data (c :: rest) then
      match findImgK q ((c :: rest).drop 4) with
      | some (k, url) =>
        replImg base ((c :: rest).take (4 + k + 5 + url.length + 1)) url
          ++ imgScanGo base q fuel ((c :: rest).drop (4 + k + 5 + url.length + 1))
      | none => c :: imgScanGo base q fuel rest
    else c :: imgScanGo base q fuel rest

/-- The single-quote character (written by code point to keep it readable). -/
def squote : Char := Char.ofNat 39

/-- `rewrite_image_links` (src/app.py lines 875-895): the Markdown pass, then
the double-quoted `<img>` pass, then the single-quoted `<img>` pass. -/
def rewrite_image_links (base : String) (s : List Char) : List Char :=
  let s1 := mdScanGo base s.length s
  let s2 := imgScanGo base '"' s1.length s1
  imgScanGo base squote s2.length s2

/-! ### Format dispatching and the document reader (`get_document`,
`_decode_possible_text`, `_docx_from_bytes`, `_plain_text_html`,
src/app.py lines 899-1028 and 1050-1074)

External capabilities — the MinIO client, the Markdown renderer, mammoth,
textract and the text codecs of the Python runtime — are record fields;
the control flow around them is translated from the source. -/

/-- Outcome of `textract.process` on a temporary `.doc` file. -/
inductive TexResult where
  | ok (textBytes : List Nat)
  | shellError (msg : String)
  | otherError (msg : String)
deriving DecidableEq, Repr

/-- External capabilities used by `get_document`.  `mammoth` and `textract`
are `Option` because the imports are guarded; each decoder returns `none`
where the Python codec would raise `UnicodeDecodeError`. -/
structure FormatEnv where
  imageBase : String
  statEtag : String → String
  fetch : String → List Nat
  mdRender : String → String × String
  mammoth : Option (List Nat → Except String (String × String))
  textract : Option (List Nat → TexResult)
  utf8Decode : List Nat → Option String
  gbkDecode : List Nat → Option String
  gb2312Decode : List Nat → Option String
  latin1Decode : List Nat → Option String
  utf8DecodeIgnore : List Nat → String
  printable : Char → Bool

/-- `_esc`: HTML-escape `&`, `<` and `>` (the sequential `str.replace` chain
is equivalent to this per-character map because no replacement string contains
a character replaced by a later step at a position it would rescan). -/
def _esc (t : List Char) : List Char :=
  t.flatMap (fun c =>
    if c = '&' then "&amp;".data
    else if c = '<' then "&lt;".data
    else if c = '>' then "&gt;".data
    else [c])

/-- `_plain_text_html` (src/app.py lines 951-955). -/
def _plain_text_html (text : String) : String :=
  if pyStrip text.data = [] then
    "<div class='doc-preview-inner doc-preview-empty'><em>文档为空</em></div>"
  else
    "<div class='doc-preview-inner'>"
      ++ String.mk (strReplace ['\n'] "<br>".data (_esc text.data)) ++ "</div>"

/-- `text.replace("\r\n", "\n").replace("\r", "\n")`. -/
def normalizeNewlines (l : List Char) : List Char :=
  strReplace ['\r'] ['\n'] (strReplace ['\r', '\n'] ['\n'] l)

/-- `data.strip(b"\x00")`. -/
def stripNulls (data : List Nat) : List Nat :=
  ((data.dropWhile (fun b => b = 0)).reverse.dropWhile (fun b => b = 0)).reverse

/-- One iteration of the encoding loop of `_decode_possible_text`: decode,
normalize newlines, require a ≥60% printable 2000-character preview and a
non-blank stripped text.  The float test `printable / total < 0.6` is modelled
as `5 * printable < 3 * total`; with `total ≤ 2000` the IEEE-double quotient
is far closer to the exact rational than to the rounding boundary of the
double nearest 0.6, so the two tests agree. -/
def decodeCandidate (env : FormatEnv) (sample : List Nat)
    (dec : List Nat → Option String) : Option String :=
  match dec sample with
  | none => none
  | some text =>
    let normalized := normalizeNewlines text.data
    let preview := normalized.take 2000
    let total := preview.length
    if total = 0 then none
    else
      let printableCnt :=
        (preview.filter (fun ch => env.printable ch || ch = '\n' || ch = '\t')).length
      if 5 * printableCnt < 3 * total then none
      else
        let cleaned := pyStrip normalized
        if cleaned = [] then none else some (String.mk cleaned)

/-- `_decode_possible_text` (src/app.py lines 1050-1074). -/
def _decode_possible_text (env : FormatEnv) (data : List Nat) : Option String :=
  if data = [] then none
  else
    let sample := stripNulls data
    if sample = [] then none
    else
      [env.utf8Decode, env.gbkDecode, env.gb2312Decode, env.latin1Decode].findSome?
        (fun dec => decodeCandidate env sample dec)

/-- `_docx_from_bytes` (src/app.py lines 899-909). -/
def _docx_from_bytes (env : FormatEnv) (data : List Nat) : Except String (String × String) :=
  match env.mammoth with
  | none => .error "未安装 mammoth，无法预览 DOCX 文档。"
  | some conv =>
    match conv data with
    | .error exc => .error ("DOCX 解析失败：" ++ exc)
    | .ok (text, htmlBody) =>
      .ok (text, "<div class='docx-preview'>" ++ htmlBody ++ "</div>")

/-- `os.path.splitext(key)[1]`: the extension starts at the last dot of the
basename provided some non-dot character precedes it within the basename. -/
def splitextExt (l : List Char) : List Char :=
  let b := (l.reverse.takeWhile (fun c => ¬ c = '/')).reverse
  let rev := b.reverse
  let extRev := rev.takeWhile (fun c => ¬ c = '.')
  match rev.dropWhile (fun c => ¬ c = '.') with
  | '.' :: beforeRev =>
    if beforeRev.any (fun c => ¬ c = '.') then '.' :: extRev.reverse else []
  | _ => []

/-- `os.path.splitext(key)[1].lower()` (ASCII lower-casing). -/
def extOf (key : String) : String := String.mk ((splitextExt key.data).map Char.toLower)

/-- Association-list lookup used for the static extension table and the
existing-document map. -/
def lookupStr (m : List (String × String)) (k : String) : Option String :=
  (m.find? (fun p => p.1 = k)).map (·.2)

/-- The static `SUPPORTED_EXTS` table (src/app.py lines 774-779). -/
def SUPPORTED_EXTS : List (String × String) :=
  [(".md", "markdown"), (".markdown", "markdown"), (".docx", "docx"), (".doc", "doc")]

/-- Did `get_document` fetch the object bytes / run a format conversion? -/
structure GetDocTrace where
  fetched : Bool
  converted : Bool
deriving DecidableEq, Repr

/-- The format-dispatch part of `get_document` (src/app.py lines 978-1025):
branch on the detected type, with the ZIP-magic DOCX attempt and the textract
fallback chain for legacy `.doc`.  Returns `(text, html, toc_html)`. -/
def docConvert (env : FormatEnv) (docType : String) (data : List Nat) :
    Except String (String × String × String) :=
  if docType = "markdown" then
    let text := env.utf8DecodeIgnore data
    let text2 := String.mk (rewrite_image_links env.imageBase text.data)
    let rendered := env.mdRender text2
    .ok (text, "<div class='doc-preview-inner markdown-body'>" ++ rendered.1 ++ "</div>",
      rendered.2)
  else if docType = "docx" then
    match _docx_from_bytes env data with
    | .error e => .error e
    | .ok r => .ok (r.1, r.2, "")
  else if docType = "doc" then
    let docxTry : Option (String × String) :=
      if listIsPre ['P', 'K'] (data.map (fun b => Char.ofNat b)) then
        match _docx_from_bytes env data with
        | .ok r => some r
        | .error _ => none
      else none
    match docxTry with
    | some r => .ok (r.1, r.2, "")
    | none =>
      match env.textract with
      | none => .error "未安装 textract 或其依赖，无法预览 DOC 文档。"
      | some f =>
        match f data with
        | .ok tb =>
          let text := env.utf8DecodeIgnore tb
          .ok (text, _plain_text_html text, "")
        | .shellError exc =>
          let text := match _decode_possible_text env data with
            | some fb => fb
            | none => "无法解析为有效的 Word 文档：" ++ exc
          .ok (text, _plain_text_html text, "")
        | .otherError exc => .error ("DOC 解析失败：" ++ exc)
  else .error ("未知文档类型：" ++ docType)

/-- The cold path of `get_document`: fetch the bytes, convert, store the
result in the cache keyed by the observed fingerprint. -/
def coldResult (env : FormatEnv) (cache1 : LRUState CacheVal) (key docType etag : String) :
    Except String (CacheVal × LRUState CacheVal × GetDocTrace) :=
  match docConvert env docType (env.fetch key) with
  | .error e => .error e
  | .ok r =>
    let val : CacheVal := ⟨etag, docType, r.1, r.2.1, r.2.2⟩
    .ok (val, LRU.set cache1 key val, ⟨true, true⟩)

/-- The fingerprint `get_document` works with: the caller-supplied
`known_etag` if given, otherwise the `stat_object` etag. -/
def observedEtag (env : FormatEnv) (key : String) (knownEtag : Option String) : String :=
  match knownEtag with
  | none => env.statEtag key
  | some e => e

/-- `get_document` (src/app.py lines 959-1028), with the mutable `DOC_CACHE`
threaded explicitly and a trace recording whether bytes were fetched and a
conversion ran. -/
def get_document (env : FormatEnv) (cache : LRUState CacheVal) (key : String)
    (knownEtag : Option String) :
    Except String (CacheVal × LRUState CacheVal × GetDocTrace) :=
  match lookupStr SUPPORTED_EXTS (extOf key) with
  | none => .error ("不支持的文件类型：" ++ extOf key)
  | some docType =>
    match LRU.get cache key with
    | (some v, cache1) =>
      if v.etag = observedEtag env key knownEtag then .ok (v, cache1, ⟨false, false⟩)
      else coldResult env cache1 key docType (observedEtag env key knownEtag)
    | (none, cache1) => coldResult env cache1 key docType (observedEtag env key knownEtag)

/-! ### Index reconciler (`sync_elasticsearch`, src/app.py lines 1101-1171)

The Elasticsearch index becomes an association list from document id to
record; the backend calls become environment outcomes.  The search that
fetches the existing `(id, etag)` pairs is modelled as reading the index
state (the source requests a single 10000-hit page; the spec records the
truncation risk as a known limitation). -/

/-- One entry of the `docs` listing handed to the reconciler. -/
structure DocRef where
  key : String
  etag : String
deriving DecidableEq, Repr

/-- Document indexed by Elasticsearch (the `body` built by the sync loop). -/
structure EsRecord where
  path : String
  title : String
  content : String
  etag : String
  ext : String
deriving DecidableEq, Repr

/-- Outcome of the initial match-all search. -/
inductive ReadOutcome where
  | ok
  | notFound
  | err (msg : String)
deriving DecidableEq, Repr

/-- Backend behaviour for one reconciliation run. -/
structure SyncEnv where
  esEnabled : Bool
  connect : Except String Unit
  readOutcome : ReadOutcome
  getDoc : String → Option String → Except String (String × String × String)
  deleteOk : String → Bool
  indexErr : String → Option String

/-- `key.split("/")[-1]`. -/
def lastSegment (key : String) : String :=
  String.mk ((key.data.reverse.takeWhile (fun c => ¬ c = '/')).reverse)

def deleteId (l : List (String × EsRecord)) (id : String) : List (String × EsRecord) :=
  l.filter (fun p => ¬ p.1 = id)

/-- `es.index(index=…, id=key, document=body)`: replace or append. -/
def upsertId (l : List (String × EsRecord)) (id : String) (r : EsRecord) :
    List (String × EsRecord) :=
  if (l.find? (fun p => p.1 = id)).isSome then
    l.map (fun p => if p.1 = id then (id, r) else p)
  else l ++ [(id, r)]

/-- The stale-id deletion loop: deletions that raise are silently skipped
(`except Exception: pass`); successes count toward `removed`. -/
def syncDeletes (env : SyncEnv) : List String → List (String × EsRecord) → Nat →
    List (String × EsRecord) × Nat
  | [], idx, removed => (idx, removed)
  | id :: rest, idx, removed =>
    if env.deleteOk id then syncDeletes env rest (deleteId idx id) (removed + 1)
    else syncDeletes env rest idx removed

/-- The per-document update loop of `sync_elasticsearch`. -/
def syncDocs (env : SyncEnv) (existing : List (String × String)) (force : Bool) :
    List DocRef → List (String × EsRecord) → Nat → List String →
    List (String × EsRecord) × Nat × List String
  | [], idx, upd, errs => (idx, upd, errs)
  | doc :: rest, idx, upd, errs =>
    if ¬ force ∧ lookupStr existing doc.key = some doc.etag then
      syncDocs env existing force rest idx upd errs
    else
      match env.getDoc doc.key (some doc.etag) with
      | .error exc =>
        syncDocs env existing force rest idx upd (errs ++ [doc.key ++ ": " ++ exc])
      | .ok r =>
        if pyStrip r.2.2.data = [] then syncDocs env existing force rest idx upd errs
        else
          match env.indexErr doc.key with
          | none =>
            syncDocs env existing force rest
              (upsertId idx doc.key ⟨doc.key, lastSegment doc.key, r.2.2, r.1, r.2.1⟩)
              (upd + 1) errs
          | some exc =>
            syncDocs env existing force rest idx upd (errs ++ [doc.key ++ ": " ++ exc])

/-- Result of one reconciliation run, as distinguished by the returned status
string: disabled, the empty-listing completion, the two top-level failures
and the normal completion with its counters and per-item errors. -/
inductive SyncResult where
  | disabled
  | noDocs
  | connectFailed (msg : String)
  | readFailed (msg : String)
  | done (updated removed : Nat) (errors : List String)
deriving DecidableEq, Repr

def updatedCount : SyncResult → Nat
  | .done u _ _ => u
  | _ => 0

def removedCount : SyncResult → Nat
  | .done _ r _ => r
  | _ => 0

/-- The post-read part of `sync_elasticsearch`, given the fetched
`existing_map`. -/
def syncMain (env : SyncEnv) (idx : List (String × EsRecord)) (docs : List DocRef)
    (force : Bool) (existing : List (String × String)) :
    SyncResult × List (String × EsRecord) :=
  let docKeys := docs.map (fun d => d.key)
  let staleIds := (existing.map (fun p => p.1)).filter (fun k => ¬ k ∈ docKeys)
  let del := syncDeletes env staleIds idx 0
  let upd := syncDocs env existing force docs del.1 0 []
  (.done upd.2.1 del.2 upd.2.2, upd.1)

/-- `sync_elasticsearch` (src/app.py lines 1101-1171). -/
def sync_elasticsearch (env : SyncEnv) (idx : List (String × EsRecord))
    (docs : List DocRef) (force : Bool) : SyncResult × List (String × EsRecord) :=
  if ¬ env.esEnabled then (.disabled, idx)
  else if docs = [] then (.noDocs, idx)
  else
    match env.connect with
    | .error exc => (.connectFailed exc, idx)
    | .ok _ =>
      match env.readOutcome with
      | .err exc => (.readFailed exc, idx)
      | .notFound => syncMain env idx docs force []
      | .ok => syncMain env idx docs force (idx.map (fun p => (p.1, p.2.etag)))

/-! ### Compatibility shim (`_es_search_request`, src/app.py lines 636-769)

Each client call becomes an outcome: success, a `TypeError` (the shape-error
class the shim retries across), or any other exception (which propagates
uncaught).  The nested control flow of the source flattens into the ordered
attempt list `searchAttempts`: the three direct call shapes, the three
options-client acquisitions (whose `TypeError`s are recorded but which
contribute no result), four retry shapes per successfully acquired client,
and finally the raw transport request. -/

inductive CallOutcome (α : Type) where
  | ok (val : α)
  | typeErr (msg : String)
  | exn (msg : String)
deriving DecidableEq, Repr

/-- A client returned by `es.options(...)`, with its four retry shapes
(`.search()`, native kwargs, `params=`, `query_params=`). -/
structure OptClient (α : Type) where
  plain : CallOutcome α
  native : CallOutcome α
  params : CallOutcome α
  queryParams : CallOutcome α
deriving DecidableEq, Repr

/-- Behaviour of the Elasticsearch client for one `_es_search_request` call. -/
structure EsClientModel (α : Type) where
  searchNative : CallOutcome α
  searchParams : CallOutcome α
  searchQueryParams : CallOutcome α
  hasOptions : Bool
  optionsParams : CallOutcome (OptClient α)
  optionsQueryParams : CallOutcome (OptClient α)
  optionsPlain : CallOutcome (OptClient α)
  hasTransport : Bool
  transportPerform : CallOutcome α
  plainSearch : CallOutcome α
deriving DecidableEq, Repr

/-- The three `es.options(...)` acquisition calls, in source order (only when
`es.options` is callable). -/
def optionAcqs (es : EsClientModel α) : List (String × CallOutcome (OptClient α)) :=
  if es.hasOptions then
    [("es.options(params=…)", es.optionsParams),
     ("es.options(query_params=…)", es.optionsQueryParams),
     ("es.options()", es.optionsPlain)]
  else []

/-- An acquisition that raises `TypeError` is recorded like any attempt; one
that raises anything else propagates; a successful one contributes no entry
of its own (its client's searches come later). -/
def acqEntries (p : String × CallOutcome (OptClient α)) : List (String × CallOutcome α) :=
  match p.2 with
  | .ok _ => []
  | .typeErr m => [(p.1, .typeErr m)]
  | .exn m => [(p.1, .exn m)]

def acquiredClients (es : EsClientModel α) : List (String × OptClient α) :=
  (optionAcqs es).filterMap (fun p => match p.2 with
    | .ok c => some (p.1, c)
    | _ => none)

def clientAttempts (p : String × OptClient α) : List (String × CallOutcome α) :=
  [(p.1 ++ ".search()", p.2.plain),
   (p.1 ++ ".search(**search_params)", p.2.native),
   (p.1 ++ ".search(params=…)", p.2.params),
   (p.1 ++ ".search(query_params=…)", p.2.queryParams)]

/-- The full ordered attempt sequence of `_es_search_request` for a non-empty
parameter mapping. -/
def searchAttempts (es : EsClientModel α) : List (String × CallOutcome α) :=
  [("es.search(**search_params)", es.searchNative),
   ("es.search(params=…)", es.searchParams),
   ("es.search(query_params=…)", es.searchQueryParams)]
  ++ (optionAcqs es).flatMap acqEntries
  ++ (acquiredClients es).flatMap clientAttempts
  ++ (if es.hasTransport then [("transport.perform_request", es.transportPerform)] else [])

/-- The `_try_call` driver: the first success returns; a `TypeError` is
recorded (label and message) and the next attempt runs; any other exception
propagates; if every attempt raised `TypeError` the recorded messages are
re-raised concatenated; with no recorded `TypeError` the source falls back to
a parameterless `es.search`. -/
def runAttempts (plain : CallOutcome α) :
    List (String × CallOutcome α) → List String → Option String → CallOutcome α
  | [], _, none => plain
  | [], errs, some last =>
    .typeErr (last ++ " (search attempts: " ++ String.intercalate "; " errs ++ ")")
  | (_, .ok r) :: _, _, _ => .ok r
  | (_, .exn m) :: _, _, _ => .exn m
  | (lbl, .typeErr m) :: rest, errs, _ =>
    runAttempts plain rest (errs ++ [lbl ++ ": " ++ m]) (some m)

/-- `_es_search_request` (src/app.py lines 636-769): an empty parameter
mapping short-circuits to a plain search; otherwise the attempt chain runs. -/
def _es_search_request (es : EsClientModel α) (paramsEmpty : Bool) : CallOutcome α :=
  if paramsEmpty then es.plainSearch
  else runAttempts es.plainSearch (searchAttempts es) [] none

/-- The message carried by a `TypeError` outcome. -/
def typeMsg : CallOutcome α → String
  | .typeErr m => m
  | _ => ""

/-- Concrete format environment used in witnesses: the store always reports
fingerprint `E`, the object bytes decode to `hello`, and the Markdown renderer
is the identity with an empty table of contents. -/
def envW : FormatEnv where
  imageBase := "b"
  statEtag := fun _ => "E"
  fetch := fun _ => [104, 101, 108, 108, 111]
  mdRender := fun s => (s, "")
  mammoth := none
  textract := none
  utf8Decode := fun _ => none
  gbkDecode := fun _ => none
  gb2312Decode := fun _ => none
  latin1Decode := fun _ => none
  utf8DecodeIgnore := fun _ => "hello"
  printable := fun _ => true

/-- The cache entry `get_document` produces for `a.md` under `envW`. -/
def valW : CacheVal :=
  ⟨"E", "markdown", "hello",
    "<div class='doc-preview-inner markdown-body'>hello</div>", ""⟩

/-- The ASCII fragment shared by Python's `utf-8`, `gbk` and `gb2312` codecs:
on inputs whose bytes are all below 128 these codecs decode to the
corresponding ASCII characters; other inputs are not used by the concrete
examples, which this stand-in rejects. -/
def asciiDecode (data : List Nat) : Option String :=
  if data.all (fun b => b < 128) then some (String.mk (data.map (fun b => Char.ofNat b)))
  else none

/-- `latin-1` decodes every byte to the code point of the same value. -/
def latin1DecodeFn (data : List Nat) : Option String :=
  some (String.mk (data.map (fun b => Char.ofNat b)))

/-- `str.isprintable` on the ASCII range. -/
def asciiPrintable (c : Char) : Bool := 32 ≤ c.toNat && c.toNat < 127

/-- Legacy-`.doc` environment whose object is two ASCII space bytes and whose
textract capability fails with a shell error. -/
def envC7 : FormatEnv where
  imageBase := "b"
  statEtag := fun _ => "E"
  fetch := fun _ => [32, 32]
  mdRender := fun s => (s, "")
  mammoth := none
  textract := some (fun _ => .shellError "boom")
  utf8Decode := asciiDecode
  gbkDecode := asciiDecode
  gb2312Decode := asciiDecode
  latin1Decode := latin1DecodeFn
  utf8DecodeIgnore := fun _ => ""
  printable := asciiPrintable

/-- Like `envC7` but the object bytes are `hi`, which the last-resort decode
accepts. -/
def envC7b : FormatEnv :=
  { envC7 with fetch := fun _ => [104, 105] }

/-- The error text `get_document` produces when the legacy handler fails with
shell error `exc` and no encoding yields acceptable text. -/
def docErrText (exc : String) : String := "无法解析为有效的 Word 文档：" ++ exc

/-- Concrete records for reconciler examples. -/
def recA : EsRecord := ⟨"a", "a", "ca", "ea", "doc"⟩

def recB : EsRecord := ⟨"b", "b", "cb", "eb", "doc"⟩

def recK : EsRecord := ⟨"k", "k", "ck", "old", "doc"⟩

/-- Reconciler environment for the C1 example: reading documents fails, the
delete of `b` raises (and is silently swallowed), everything else succeeds. -/
def envC1 : SyncEnv where
  esEnabled := true
  connect := .ok ()
  readOutcome := .ok
  getDoc := fun _ _ => .error "x"
  deleteOk := fun id => if id = "b" then false else true
  indexErr := fun _ => none

def idxC1 : List (String × EsRecord) := [("a", recA), ("b", recB), ("k", recK)]

def docsC1 : List DocRef := [⟨"k", "E"⟩]

/-- Fully healthy reconciler environment: the reader returns the handed
fingerprint with fixed non-blank text, and every backend call succeeds. -/
def envC5 : SyncEnv where
  esEnabled := true
  connect := .ok ()
  readOutcome := .ok
  getDoc := fun _ e => .ok (e.getD "", "doc", "t")
  deleteOk := fun _ => true
  indexErr := fun _ => none

/-! ### Auxiliary lemmas and claim theorems -/

/-! Auxiliary lemmas about `eraseKey`, `lookupKey` and `take`. -/

theorem lookup_none_iff {od : List (String × α)} {k : String} :
    lookupKey od k = none ↔ ∀ p ∈ od, ¬ p.1 = k := by
  simp [lookupKey, Option.map_eq_none', List.find?_eq_none]

theorem eraseKey_of_lookup_none {od : List (String × α)} {k : String}
    (h : lookupKey od k = none) : eraseKey od k = od := by
  rw [eraseKey, List.filter_eq_self]
  intro p hp
  simpa using lookup_none_iff.mp h p hp

theorem eraseKey_map_fst (od : List (String × α)) (k : String) :
    (eraseKey od k).map Prod.fst = (od.map Prod.fst).filter (fun x => ¬ x = k) := by
  induction od with
  | nil => rfl
  | cons p rest ih =>
    by_cases hp : p.1 = k <;>
      simp [eraseKey, List.filter_cons, hp, ih, eraseKey] at * <;>
      simp [List.filter_cons, hp, ih]

theorem length_eraseKey_le (od : List (String × α)) (k : String) :
    (eraseKey od k).length ≤ od.length :=
  List.length_filter_le _ _

theorem eraseKey_reverse (od : List (String × α)) (k : String) :
    eraseKey od.reverse k = (eraseKey od k).reverse := by
  simp [eraseKey, List.filter_reverse]

theorem mem_keys_of_lookup {od : List (String × α)} {k : String}
    (h : lookupKey od k ≠ none) : k ∈ od.map Prod.fst := by
  rcases Option.ne_none_iff_exists'.mp h with ⟨v, hv⟩
  simp only [lookupKey, Option.map_eq_some'] at hv
  rcases hv with ⟨p, hp, _⟩
  have hmem := List.mem_of_find?_eq_some hp
  have hk : p.1 = k := by simpa using List.find?_some hp
  exact hk ▸ List.mem_map_of_mem Prod.fst hmem

theorem lookup_none_of_not_mem {od : List (String × α)} {k : String}
    (h : k ∉ od.map Prod.fst) : lookupKey od k = none := by
  apply lookup_none_iff.mpr
  intro p hp hk
  exact h (hk ▸ List.mem_map_of_mem Prod.fst hp)

theorem length_eraseKey_of_lookup {od : List (String × α)} {k : String} {v : α}
    (hnd : (od.map Prod.fst).Nodup) (h : lookupKey od k = some v) :
    (eraseKey od k).length + 1 = od.length := by
  induction od with
  | nil => simp [lookupKey] at h
  | cons p rest ih =>
    simp only [List.map_cons, List.nodup_cons] at hnd
    by_cases hp : p.1 = k
    · have hnone : lookupKey rest k = none := lookup_none_of_not_mem (hp ▸ hnd.1)
      have hr : eraseKey rest k = rest := eraseKey_of_lookup_none hnone
      have l2 : eraseKey (p :: rest) k = rest := by
        simpa [eraseKey, List.filter_cons, hp] using hr
      simp [l2]
    · have h' : lookupKey rest k = some v := by
        simpa [lookupKey, List.find?_cons, hp] using h
      have ihh := ih hnd.2 h'
      have l2 : eraseKey (p :: rest) k = p :: eraseKey rest k := by
        simp [eraseKey, List.filter_cons, hp]
      rw [l2]
      simp only [List.length_cons]
      omega

/-- Erasing a key found inside the first `c` entries commutes with `take`:
the window just shrinks by one. -/
theorem eraseKey_take_of_mem {D : List (String × α)} {k : String} {c : Nat}
    (hnd : (D.map Prod.fst).Nodup) (h : k ∈ (D.take c).map Prod.fst) :
    eraseKey (D.take c) k = (eraseKey D k).take (c - 1) := by
  induction D generalizing c with
  | nil => simp at h
  | cons p rest ih =>
    cases c with
    | zero => simp at h
    | succ c' =>
      simp only [List.map_cons, List.nodup_cons] at hnd
      by_cases hp : p.1 = k
      · have hnone : lookupKey rest k = none := lookup_none_of_not_mem (hp ▸ hnd.1)
        have hr : eraseKey rest k = rest := eraseKey_of_lookup_none hnone
        have hrt : eraseKey (rest.take c') k = rest.take c' := by
          rw [eraseKey, List.filter_eq_self]
          intro q hq
          simpa using lookup_none_iff.mp hnone q (List.mem_of_mem_take hq)
        have l1 : eraseKey ((p :: rest).take (c' + 1)) k = rest.take c' := by
          simpa [List.take_succ_cons, eraseKey, List.filter_cons, hp] using hrt
        have l2 : eraseKey (p :: rest) k = rest := by
          simpa [eraseKey, List.filter_cons, hp] using hr
        rw [l1, l2]
        simp
      · have hmem : k ∈ (rest.take c').map Prod.fst := by
          rcases (by simpa [List.take_succ_cons] using h :
              k = p.1 ∨ k ∈ (rest.take c').map Prod.fst) with h1 | h2
          · exact absurd h1.symm hp
          · exact h2
        have hc' : 1 ≤ c' := by
          cases c' with
          | zero => simp at hmem
          | succ _ => omega
        have ihr := ih hnd.2 hmem
        have l1 : eraseKey ((p :: rest).take (c' + 1)) k = p :: eraseKey (rest.take c') k := by
          simp [List.take_succ_cons, eraseKey, List.filter_cons, hp]
        have l2 : eraseKey (p :: rest) k = p :: eraseKey rest k := by
          simp [eraseKey, List.filter_cons, hp]
        rw [l1, ihr, l2]
        obtain ⟨c'', rfl⟩ : ∃ c'', c' = c'' + 1 := ⟨c' - 1, by omega⟩
        simp [List.take_succ_cons]

/-- Erasing a key that does not occur in the first `c` entries leaves the
first `c` entries alone. -/
theorem take_eraseKey_of_not_mem {D : List (String × α)} {k : String} {c : Nat}
    (h : k ∉ (D.take c).map Prod.fst) :
    (eraseKey D k).take c = D.take c := by
  induction D generalizing c with
  | nil => simp [eraseKey]
  | cons p rest ih =>
    cases c with
    | zero => simp
    | succ c' =>
      have hp : ¬ p.1 = k := by
        intro hpk
        apply h
        simp only [List.take_succ_cons, List.map_cons, List.mem_cons]
        exact Or.inl hpk.symm
      have hrest : k ∉ (rest.take c').map Prod.fst := by
        intro hm
        apply h
        simp only [List.take_succ_cons, List.map_cons, List.mem_cons]
        exact Or.inr hm
      have l2 : eraseKey (p :: rest) k = p :: eraseKey rest k := by
        simp [eraseKey, List.filter_cons, hp]
      rw [l2]
      simp [List.take_succ_cons, ih hrest]

theorem reverse_drop_one (l : List β) : l.reverse.drop 1 = l.dropLast.reverse := by
  induction l using List.reverseRecOn with
  | nil => rfl
  | append_singleton l' x ih => simp

theorem LRU.set_od (s : LRUState α) (k : String) (v : α) :
    (LRU.set s k v).od = if s.cap < (eraseKey s.od k ++ [(k, v)]).length
      then (eraseKey s.od k ++ [(k, v)]).drop 1 else eraseKey s.od k ++ [(k, v)] := by
  rw [LRU.set]
  split <;> rfl

theorem LRU.set_cap (s : LRUState α) (k : String) (v : α) :
    (LRU.set s k v).cap = s.cap := by
  rw [LRU.set]
  split <;> rfl

/-- One `set` step, seen through the recency abstraction: if the ordered dict
holds the newest `cap` entries of the newest-first list `D` (reversed, since
the dict is oldest-first), then after `set k v` it holds the newest `cap`
entries of `(k, v) :: eraseKey D k`. -/
theorem set_reverse_take (D : List (String × α)) (hnd : (D.map Prod.fst).Nodup)
    (cap : Nat) (k : String) (v : α) :
    (LRU.set ⟨cap, (D.take cap).reverse⟩ k v).od
      = (((k, v) :: eraseKey D k).take cap).reverse := by
  by_cases hmem : k ∈ (D.take cap).map Prod.fst
  · obtain ⟨c', rfl⟩ : ∃ c', cap = c' + 1 := by
      cases cap with
      | zero => simp at hmem
      | succ c' => exact ⟨c', rfl⟩
    have e1 : eraseKey (D.take (c' + 1)) k = (eraseKey D k).take c' := by
      simpa using eraseKey_take_of_mem hnd hmem
    have hodr : eraseKey ((D.take (c' + 1)).reverse) k = ((eraseKey D k).take c').reverse := by
      rw [eraseKey_reverse, e1]
    have hlen : ((eraseKey D k).take c').length ≤ c' := List.length_take_le c' _
    rw [LRU.set_od]
    dsimp only
    rw [if_neg (by
      rw [hodr]
      simp only [List.length_append, List.length_reverse, List.length_singleton]
      omega)]
    rw [hodr]
    simp only [List.take_succ_cons, List.reverse_cons]
  · have e0 : eraseKey (D.take cap) k = D.take cap := by
      rw [eraseKey, List.filter_eq_self]
      intro p hp
      simp only [decide_eq_true_eq]
      intro hpk
      exact hmem (hpk ▸ List.mem_map_of_mem Prod.fst hp)
    have hodr : eraseKey ((D.take cap).reverse) k = (D.take cap).reverse := by
      rw [eraseKey_reverse, e0]
    by_cases hD : D.length < cap
    · have htake : D.take cap = D := List.take_of_length_le (le_of_lt hD)
      have her : eraseKey D k = D := by rw [← htake, e0]
      rw [LRU.set_od]
      dsimp only
      rw [if_neg (by
        rw [hodr, htake]
        simp only [List.length_append, List.length_reverse, List.length_singleton]
        omega)]
      rw [hodr]
      have hrhs : ((k, v) :: eraseKey D k).take cap = (k, v) :: D := by
        rw [her]
        exact List.take_of_length_le (by simp only [List.length_cons]; omega)
      rw [hrhs, htake, List.reverse_cons]
    · push_neg at hD
      cases cap with
      | zero =>
        rw [LRU.set_od]
        dsimp only
        rw [if_pos (by simp)]
        rfl
      | succ c' =>
        have hlen : (D.take (c' + 1)).length = c' + 1 := by
          simp only [List.length_take]
          omega
        rw [LRU.set_od]
        dsimp only
        rw [if_pos (by
          rw [hodr]
          simp only [List.length_append, List.length_reverse, List.length_singleton, hlen]
          omega)]
        have hrevlen : 1 ≤ (D.take (c' + 1)).reverse.length := by
          simp [hlen]
        have step1 : (eraseKey ((D.take (c' + 1)).reverse) k ++ [(k, v)]).drop 1
            = (D.take (c' + 1)).reverse.drop 1 ++ [(k, v)] := by
          rw [hodr, List.drop_append_of_le_length hrevlen]
        have step2 : (D.take (c' + 1)).reverse.drop 1 = (D.take c').reverse := by
          rw [reverse_drop_one]
          congr 1
          rw [List.dropLast_eq_take, hlen]
          simp [List.take_take]
        have hsub : k ∉ (D.take c').map Prod.fst := by
          intro hm
          apply hmem
          have heq : D.take c' = (D.take (c' + 1)).take c' := by simp [List.take_take]
          rw [heq] at hm
          rcases List.mem_map.mp hm with ⟨p, hp, hpk⟩
          exact hpk ▸ List.mem_map_of_mem Prod.fst (List.mem_of_mem_take hp)
        have e2 : (eraseKey D k).take c' = D.take c' := take_eraseKey_of_not_mem hsub
        rw [step1, step2]
        simp only [List.take_succ_cons, e2, List.reverse_cons]

/-- `runPuts` distributes over appending one operation at the end. -/
theorem runPuts_append (s : LRUState α) (l : List (String × α)) (k : String) (v : α) :
    runPuts s (l ++ [(k, v)]) = LRU.set (runPuts s l) k v := by
  induction l generalizing s with
  | nil => rfl
  | cons p rest ih =>
    cases p with
    | mk pk pv =>
      simp only [List.cons_append, runPuts]
      exact ih _

theorem runPuts_cap (s : LRUState α) (ops : List (String × α)) :
    (runPuts s ops).cap = s.cap := by
  induction ops generalizing s with
  | nil => rfl
  | cons p rest ih =>
    cases p with
    | mk k v =>
      simp only [runPuts]
      rw [ih, LRU.set_cap]

theorem dedupKeys_keys_nodup (l : List (String × α)) :
    ((dedupKeys l).map Prod.fst).Nodup := by
  induction l with
  | nil => simp [dedupKeys]
  | cons p rest ih =>
    cases p with
    | mk k v =>
      simp only [dedupKeys, List.map_cons, List.nodup_cons]
      constructor
      · intro hm
        rw [eraseKey_map_fst] at hm
        rcases List.mem_filter.mp hm with ⟨_, hne⟩
        simp at hne
      · rw [eraseKey_map_fst]
        exact ih.filter _

/-- Recency characterization of the cache after a pure `set` sequence from
the empty state: the ordered dict holds exactly the capacity-many most
recently put keys (with their most recently put values), oldest first. -/
theorem runPuts_characterization (ops : List (String × α)) (cap : Nat) :
    (runPuts ⟨cap, []⟩ ops).od = ((dedupKeys ops.reverse).take cap).reverse := by
  induction ops using List.reverseRecOn with
  | nil => simp [runPuts, dedupKeys]
  | append_singleton l p ih =>
    cases p with
    | mk k v =>
      rw [runPuts_append]
      have hst : runPuts (⟨cap, []⟩ : LRUState α) l
          = ⟨cap, ((dedupKeys l.reverse).take cap).reverse⟩ := by
        cases hres : runPuts (⟨cap, []⟩ : LRUState α) l with
        | mk c o =>
          have hc : c = cap := by
            have hcap := runPuts_cap (⟨cap, []⟩ : LRUState α) l
            rw [hres] at hcap
            exact hcap
          subst hc
          have ho := ih
          rw [hres] at ho
          simpa using ho
      rw [hst, set_reverse_take _ (dedupKeys_keys_nodup _) cap k v]
      simp [dedupKeys]

/-! #### Claim C3 -/

/-- C3: the cache is a bounded LRU.  (1) `set` on an existing key replaces the
entry and moves it to the most-recently-used (last) position without eviction;
(2) `set` of a fresh key on a full cache evicts exactly the least-recently-used
(first) entry; (3) after any sequence of `set` operations from the empty cache
the dict never exceeds the capacity and holds exactly the capacity-many most
recently put keys, in recency order; (4) `get` on a hit promotes the entry to
most-recently-used and returns it; (5) `get` on an absent key returns the
absence value `none` with the state unchanged; (6) the default capacity of the
shared `DOC_CACHE` is 512. -/
theorem C3_lru_bounded_recency :
    (∀ (s : LRUState CacheVal) (k : String) (v v₀ : CacheVal),
      (s.od.map Prod.fst).Nodup → lookupKey s.od k = some v₀ → s.od.length ≤ s.cap →
      (LRU.set s k v).od = eraseKey s.od k ++ [(k, v)]) ∧
    (∀ (s : LRUState CacheVal) (k : String) (v : CacheVal),
      lookupKey s.od k = none → s.od.length = s.cap → 0 < s.cap →
      (LRU.set s k v).od = s.od.drop 1 ++ [(k, v)]) ∧
    (∀ (ops : List (String × CacheVal)) (cap : Nat),
      (runPuts ⟨cap, []⟩ ops).od.length ≤ cap ∧
      (runPuts ⟨cap, []⟩ ops).od = ((dedupKeys ops.reverse).take cap).reverse) ∧
    (∀ (s : LRUState CacheVal) (k : String) (v₀ : CacheVal),
      lookupKey s.od k = some v₀ →
      LRU.get s k = (some v₀, ⟨s.cap, eraseKey s.od k ++ [(k, v₀)]⟩)) ∧
    (∀ (s : LRUState CacheVal) (k : String),
      lookupKey s.od k = none → LRU.get s k = (none, s)) ∧
    DOC_CACHE0.cap = 512 := by
  refine ⟨?_, ?_, ?_, ?_, ?_, rfl⟩
  · intro s k v v₀ hnd hlk hle
    have hlen := length_eraseKey_of_lookup hnd hlk
    have hcond : ¬ s.cap < (eraseKey s.od k ++ [(k, v)]).length := by
      simp only [List.length_append, List.length_singleton]
      omega
    rw [LRU.set_od, if_neg hcond]
  · intro s k v hlk hfull hpos
    have her : eraseKey s.od k = s.od := eraseKey_of_lookup_none hlk
    have hcond : s.cap < (eraseKey s.od k ++ [(k, v)]).length := by
      rw [her]
      simp only [List.length_append, List.length_singleton]
      omega
    rw [LRU.set_od, if_pos hcond, her, List.drop_append_of_le_length (by omega)]
  · intro ops cap
    have hchar := runPuts_characterization ops cap
    constructor
    · rw [hchar]
      simp only [List.length_reverse]
      exact List.length_take_le cap _
    · exact hchar
  · intro s k v₀ hlk
    rw [LRU.get, hlk]
  · intro s k hlk
    rw [LRU.get, hlk]

/-- Witness for C3: a concrete run at capacity 2.  Putting `a`, `b`, then
updating `a` promotes it; inserting fresh `c` evicts `b` (the LRU entry); a
`get` of `a` hits and promotes, a `get` of `b` misses. -/
theorem C3_lru_bounded_recency_witness :
    (LRU.set (⟨2, [("a", cv 1), ("b", cv 2)]⟩ : LRUState CacheVal) "a" (cv 3)).od
        = [("b", cv 2), ("a", cv 3)] ∧
    (LRU.set (⟨2, [("b", cv 2), ("a", cv 3)]⟩ : LRUState CacheVal) "c" (cv 4)).od
        = [("a", cv 3), ("c", cv 4)] ∧
    (runPuts (⟨2, []⟩ : LRUState CacheVal) [("a", cv 1), ("b", cv 2), ("a", cv 3), ("c", cv 4)]).od
        = [("a", cv 3), ("c", cv 4)] ∧
    LRU.get (⟨2, [("a", cv 3), ("c", cv 4)]⟩ : LRUState CacheVal) "a"
        = (some (cv 3), ⟨2, [("c", cv 4), ("a", cv 3)]⟩) ∧
    LRU.get (⟨2, [("a", cv 3), ("c", cv 4)]⟩ : LRUState CacheVal) "b"
        = (none, ⟨2, [("a", cv 3), ("c", cv 4)]⟩) := by
  refine ⟨?_, ?_, ?_, ?_, ?_⟩
  · have h := C3_lru_bounded_recency.1 (⟨2, [("a", cv 1), ("b", cv 2)]⟩ : LRUState CacheVal)
      "a" (cv 3) (cv 1) (by decide) (by decide) (by decide)
    rw [h]
    decide
  · have h := C3_lru_bounded_recency.2.1 (⟨2, [("b", cv 2), ("a", cv 3)]⟩ : LRUState CacheVal)
      "c" (cv 4) (by decide) (by decide) (by decide)
    rw [h]
    decide
  · have h := (C3_lru_bounded_recency.2.2.1
      [("a", cv 1), ("b", cv 2), ("a", cv 3), ("c", cv 4)] 2).2
    rw [h]
    decide
  · exact C3_lru_bounded_recency.2.2.2.1 _ "a" (cv 3) (by decide)
  · exact C3_lru_bounded_recency.2.2.2.2.1 _ "b" (by decide)

/-! #### Claim C9 -/

/-- C9 counterexample: on a cache holding one entry, `clear()` does not return
the evicted count 1 — the Python method body has no `return`, so the call
evaluates to `None`. -/
theorem C9_counterexample :
    (LRU.clear (⟨512, [("a.md", cv 1)]⟩ : LRUState CacheVal)).1 ≠ some 1 := by
  decide

/-- C9 (amended): `clear()` empties the cache but returns `None`; the evicted
count is produced by the UI wrapper `_clear_cache`, which reads the size `n`
before clearing and reports it inside its status message. -/
theorem C9_clear_reports_size (s : LRUState CacheVal) :
    (LRU.clear s).1 = none ∧ (LRU.clear s).2.od = [] ∧
    (_clear_cache s).2.od = [] ∧
    (_clear_cache s).1 = "<em>已清空文档缓存（" ++ toString s.od.length ++ " 项）</em>" :=
  ⟨rfl, rfl, rfl, rfl⟩

/-! #### Claim C8: `build_tree` lemmas -/

theorem find_replace {d : PyDict} {k : String} (v : PyVal)
    (h : (d.find? (fun q => q.1 = k)).isSome) :
    (d.map (fun q => if q.1 = k then (k, v) else q)).find? (fun q => q.1 = k)
      = some (k, v) := by
  induction d with
  | nil => simp at h
  | cons q rest ih =>
    by_cases hq : q.1 = k
    · simp [List.find?_cons, hq]
    · have h' : (rest.find? (fun q => q.1 = k)).isSome := by
        simpa [List.find?_cons, hq] using h
      simpa [List.find?_cons, hq] using ih h'

theorem find_replace_other {d : PyDict} {k q' : String} (v : PyVal)
    (hne : ¬ q' = k) :
    (d.map (fun q => if q.1 = k then (k, v) else q)).find? (fun q => q.1 = q')
      = d.find? (fun q => q.1 = q') := by
  have hne' : ¬ k = q' := fun h => hne h.symm
  induction d with
  | nil => rfl
  | cons q rest ih =>
    by_cases hq : q.1 = k
    · have hqq : ¬ q.1 = q' := by rw [hq]; exact hne'
      simp [List.find?_cons, hq, hne', hqq, ih]
    · by_cases hq' : q.1 = q'
      · simp [List.find?_cons, hq, hq', hne, hne']
      · simp [List.find?_cons, hq, hq', ih]

theorem getVal_putVal_self (d : PyDict) (k : String) (v : PyVal) :
    getVal (putVal d k v) k = some v := by
  rw [putVal]
  by_cases h : (d.find? (fun q => q.1 = k)).isSome
  · rw [if_pos h, getVal, find_replace v h]
    rfl
  · rw [if_neg h, getVal, List.find?_append]
    have hn : d.find? (fun q => q.1 = k) = none := by
      cases hf : d.find? (fun q => q.1 = k) with
      | none => rfl
      | some x => rw [hf] at h; simp at h
    simp [hn, List.find?_cons]

theorem getVal_putVal_other (d : PyDict) (k q' : String) (v : PyVal)
    (hne : ¬ q' = k) :
    getVal (putVal d k v) q' = getVal d q' := by
  rw [putVal]
  by_cases h : (d.find? (fun q => q.1 = k)).isSome
  · rw [if_pos h, getVal, find_replace_other v hne, getVal]
  · rw [if_neg h, getVal, List.find?_append, getVal]
    have hne' : ¬ k = q' := fun hh => hne hh.symm
    have hfind : ([(k, v)].find? (fun q => q.1 = q')) = none := by
      simp [List.find?_cons, hne']
    rw [hfind]
    cases d.find? (fun q => q.1 = q') <;> rfl

theorem WFdict_files {d : PyDict} (hwf : WFdict d) :
    ∀ q ∈ d, q.1 = "__files__" → ∃ fs, q.2 = PyVal.list fs := by
  cases hwf with
  | mk d h1 h2 h3 => exact h1

theorem WFdict_dir {d : PyDict} (hwf : WFdict d) :
    ∀ q ∈ d, ¬ q.1 = "__files__" → ∃ child, q.2 = PyVal.dict child := by
  cases hwf with
  | mk d h1 h2 h3 => exact h2

theorem WFdict_child {d : PyDict} (hwf : WFdict d) :
    ∀ q ∈ d, ∀ child, q.2 = PyVal.dict child → WFdict child := by
  cases hwf with
  | mk d h1 h2 h3 => exact h3

theorem WFdict_nil : WFdict [] :=
  .mk [] (by intro q hq; exact absurd hq (List.not_mem_nil q))
    (by intro q hq; exact absurd hq (List.not_mem_nil q))
    (by intro q hq; exact absurd hq (List.not_mem_nil q))

theorem mem_putVal {d : PyDict} {k : String} {v : PyVal} {q : String × PyVal}
    (hq : q ∈ putVal d k v) : q = (k, v) ∨ q ∈ d := by
  rw [putVal] at hq
  by_cases hf : (d.find? (fun r => r.1 = k)).isSome
  · rw [if_pos hf] at hq
    rcases List.mem_map.mp hq with ⟨r, hr, hrq⟩
    by_cases hrk : r.1 = k
    · rw [if_pos hrk] at hrq
      exact Or.inl hrq.symm
    · rw [if_neg hrk] at hrq
      rw [← hrq]
      exact Or.inr hr
  · rw [if_neg hf] at hq
    rcases List.mem_append.mp hq with hmem | hmem
    · exact Or.inr hmem
    · exact Or.inl (List.mem_singleton.mp hmem)

theorem getVal_mem {d : PyDict} {k : String} {v : PyVal}
    (h : getVal d k = some v) : ∃ q, q ∈ d ∧ q.1 = k ∧ q.2 = v := by
  rw [getVal] at h
  rcases Option.map_eq_some'.mp h with ⟨q, hfind, hv⟩
  refine ⟨q, List.mem_of_find?_eq_some hfind, ?_, hv⟩
  have hp := List.find?_some hfind
  simpa using hp

theorem WFdict_getVal_files {d : PyDict} {v : PyVal} (hwf : WFdict d)
    (h : getVal d "__files__" = some v) : ∃ fs, v = PyVal.list fs := by
  rcases getVal_mem h with ⟨q, hmem, hk, hv⟩
  rcases WFdict_files hwf q hmem hk with ⟨fs, hfs⟩
  exact ⟨fs, by rw [← hv, hfs]⟩

theorem WFdict_getVal_dir {d : PyDict} {k : String} {v : PyVal} (hwf : WFdict d)
    (hk : ¬ k = "__files__") (h : getVal d k = some v) :
    ∃ child, v = PyVal.dict child ∧ WFdict child := by
  rcases getVal_mem h with ⟨q, hmem, hqk, hv⟩
  have hq : ¬ q.1 = "__files__" := by rw [hqk]; exact hk
  rcases WFdict_dir hwf q hmem hq with ⟨child, hc⟩
  refine ⟨child, by rw [← hv, hc], ?_⟩
  exact WFdict_child hwf q hmem child hc

theorem WFdict_putVal {d : PyDict} {k : String} {v : PyVal} (hwf : WFdict d)
    (hv1 : k = "__files__" → ∃ fs, v = PyVal.list fs)
    (hv2 : ¬ k = "__files__" → ∃ child, v = PyVal.dict child ∧ WFdict child) :
    WFdict (putVal d k v) := by
  refine .mk _ ?_ ?_ ?_
  · intro q hq hk
    rcases mem_putVal hq with rfl | hmem
    · exact hv1 hk
    · exact WFdict_files hwf q hmem hk
  · intro q hq hk
    rcases mem_putVal hq with rfl | hmem
    · rcases hv2 hk with ⟨child, hc, _⟩
      exact ⟨child, hc⟩
    · exact WFdict_dir hwf q hmem hk
  · intro q hq child hc
    rcases mem_putVal hq with rfl | hmem
    · have hc2 : v = PyVal.dict child := hc
      by_cases hk : k = "__files__"
      · rcases hv1 hk with ⟨fs, hfs⟩
        rw [hfs] at hc2
        exact PyVal.noConfusion hc2
      · rcases hv2 hk with ⟨child2, hcd, hwf2⟩
        rw [hcd] at hc2
        injection hc2 with h3
        rw [← h3]
        exact hwf2
    · exact WFdict_child hwf q hmem child hc

theorem insertParts_last_none {d : PyDict} {p key : String}
    (hg : getVal d "__files__" = none) :
    insertParts d [p] key = .ok (putVal d "__files__" (.list [key])) := by
  simp only [insertParts]
  rw [hg]

theorem insertParts_last_list {d : PyDict} {p key : String} {fs : List String}
    (hg : getVal d "__files__" = some (.list fs)) :
    insertParts d [p] key = .ok (putVal d "__files__" (.list (fs ++ [key]))) := by
  simp only [insertParts]
  rw [hg]

theorem insertParts_last_dict {d : PyDict} {p key : String} {c : PyDict}
    (hg : getVal d "__files__" = some (.dict c)) :
    insertParts d [p] key
      = .error "AttributeError: 'dict' object has no attribute 'append'" := by
  simp only [insertParts]
  rw [hg]

theorem insertParts_cons_list {d : PyDict} {p r1 : String} {r2 : List String}
    {key : String} {fs : List String} (hg : getVal d p = some (.list fs)) :
    insertParts d (p :: r1 :: r2) key
      = .error "AttributeError: 'list' object has no attribute 'setdefault'" := by
  simp only [insertParts]
  rw [hg]

theorem insertParts_cons_dict_ok {d : PyDict} {p r1 : String} {r2 : List String}
    {key : String} {c c2 : PyDict} (hg : getVal d p = some (.dict c))
    (hrec : insertParts c (r1 :: r2) key = .ok c2) :
    insertParts d (p :: r1 :: r2) key = .ok (putVal d p (.dict c2)) := by
  simp only [insertParts]
  rw [hg]
  dsimp only
  rw [hrec]

theorem insertParts_cons_dict_err {d : PyDict} {p r1 : String} {r2 : List String}
    {key e : String} {c : PyDict} (hg : getVal d p = some (.dict c))
    (hrec : insertParts c (r1 :: r2) key = .error e) :
    insertParts d (p :: r1 :: r2) key = .error e := by
  simp only [insertParts]
  rw [hg]
  dsimp only
  rw [hrec]

theorem insertParts_cons_none_ok {d : PyDict} {p r1 : String} {r2 : List String}
    {key : String} {c2 : PyDict} (hg : getVal d p = none)
    (hrec : insertParts [] (r1 :: r2) key = .ok c2) :
    insertParts d (p :: r1 :: r2) key = .ok (putVal d p (.dict c2)) := by
  simp only [insertParts]
  rw [hg]
  dsimp only
  rw [hrec]

theorem insertParts_cons_none_err {d : PyDict} {p r1 : String} {r2 : List String}
    {key e : String} (hg : getVal d p = none)
    (hrec : insertParts [] (r1 :: r2) key = .error e) :
    insertParts d (p :: r1 :: r2) key = .error e := by
  simp only [insertParts]
  rw [hg]
  dsimp only
  rw [hrec]

/-- When no non-final segment is named `__files__`, the insertion loop never
raises and preserves well-formedness. -/
theorem insertParts_total :
    ∀ (ps : List String), "__files__" ∉ ps.dropLast →
      ∀ (d : PyDict) (key : String), WFdict d →
        ∃ d2, insertParts d ps key = .ok d2 ∧ WFdict d2 := by
  intro ps
  induction ps with
  | nil =>
    intro _ d key hwf
    exact ⟨d, rfl, hwf⟩
  | cons p rest ih =>
    cases rest with
    | nil =>
      intro _ d key hwf
      cases hg : getVal d "__files__" with
      | none =>
        refine ⟨putVal d "__files__" (.list [key]), insertParts_last_none hg, ?_⟩
        exact WFdict_putVal hwf (fun _ => ⟨[key], rfl⟩) (fun hk => absurd rfl hk)
      | some v =>
        rcases WFdict_getVal_files hwf hg with ⟨fs, rfl⟩
        refine ⟨putVal d "__files__" (.list (fs ++ [key])), insertParts_last_list hg, ?_⟩
        exact WFdict_putVal hwf (fun _ => ⟨fs ++ [key], rfl⟩) (fun hk => absurd rfl hk)
    | cons r1 r2 =>
      intro hnc d key hwf
      have hdl : (p :: r1 :: r2).dropLast = p :: (r1 :: r2).dropLast := rfl
      rw [hdl] at hnc
      have hp : ¬ p = "__files__" := by
        intro h
        exact hnc (by rw [h]; exact List.mem_cons_self _ _)
      have htail : "__files__" ∉ (r1 :: r2).dropLast :=
        fun h => hnc (List.mem_cons_of_mem _ h)
      cases hg : getVal d p with
      | none =>
        rcases ih htail [] key WFdict_nil with ⟨c2, hrec, hwfc2⟩
        refine ⟨putVal d p (.dict c2), insertParts_cons_none_ok hg hrec, ?_⟩
        exact WFdict_putVal hwf (fun hk => absurd hk hp) (fun _ => ⟨c2, rfl, hwfc2⟩)
      | some v =>
        rcases WFdict_getVal_dir hwf hp hg with ⟨child, rfl, hwfchild⟩
        rcases ih htail child key hwfchild with ⟨c2, hrec, hwfc2⟩
        refine ⟨putVal d p (.dict c2), insertParts_cons_dict_ok hg hrec, ?_⟩
        exact WFdict_putVal hwf (fun hk => absurd hk hp) (fun _ => ⟨c2, rfl, hwfc2⟩)

theorem dirAt_cons_dict {d : PyDict} {q : String} {c : PyDict}
    (h : getVal d q = some (.dict c)) (path : List String) :
    dirAt d (q :: path) = dirAt c path := by
  rw [dirAt, h]

theorem dirAt_cons_list {d : PyDict} {q : String} {fs : List String}
    (h : getVal d q = some (.list fs)) (path : List String) :
    dirAt d (q :: path) = none := by
  rw [dirAt, h]

theorem dirAt_cons_none {d : PyDict} {q : String}
    (h : getVal d q = none) (path : List String) :
    dirAt d (q :: path) = none := by
  rw [dirAt, h]

theorem dirAt_cons_congr {d1 d2 : PyDict} {q : String}
    (h : getVal d1 q = getVal d2 q) (path : List String) :
    dirAt d1 (q :: path) = dirAt d2 (q :: path) := by
  rw [dirAt, h, dirAt]

theorem filesAt_nil_list {d : PyDict} {fs : List String}
    (h : getVal d "__files__" = some (.list fs)) : filesAt d [] = fs := by
  simp only [filesAt, dirAt]
  rw [h]

theorem filesAt_nil_none {d : PyDict}
    (h : getVal d "__files__" = none) : filesAt d [] = [] := by
  simp only [filesAt, dirAt]
  rw [h]

theorem filesAt_nil_dict {d : PyDict} {c : PyDict}
    (h : getVal d "__files__" = some (.dict c)) : filesAt d [] = [] := by
  simp only [filesAt, dirAt]
  rw [h]

theorem filesAt_nil_congr {d1 d2 : PyDict}
    (h : getVal d1 "__files__" = getVal d2 "__files__") :
    filesAt d1 [] = filesAt d2 [] := by
  simp only [filesAt, dirAt]
  rw [h]

theorem filesAt_cons_dict {d : PyDict} {q : String} {c : PyDict}
    (h : getVal d q = some (.dict c)) (path : List String) :
    filesAt d (q :: path) = filesAt c path := by
  rw [filesAt, dirAt_cons_dict h, filesAt]

theorem filesAt_cons_list {d : PyDict} {q : String} {fs : List String}
    (h : getVal d q = some (.list fs)) (path : List String) :
    filesAt d (q :: path) = [] := by
  rw [filesAt, dirAt_cons_list h]

theorem filesAt_cons_none {d : PyDict} {q : String}
    (h : getVal d q = none) (path : List String) :
    filesAt d (q :: path) = [] := by
  rw [filesAt, dirAt_cons_none h]

theorem filesAt_cons_congr {d1 d2 : PyDict} {q : String}
    (h : getVal d1 q = getVal d2 q) (path : List String) :
    filesAt d1 (q :: path) = filesAt d2 (q :: path) := by
  rw [filesAt, dirAt_cons_congr h, filesAt]

theorem filesAt_empty (path : List String) : filesAt ([] : PyDict) path = [] := by
  cases path with
  | nil => rfl
  | cons q path' =>
    exact filesAt_cons_none (show getVal ([] : PyDict) q = none from rfl) path'

/-- Directory-existence characterization of one successful insertion. -/
theorem dirAt_insertParts :
    ∀ (ps : List String) (d d2 : PyDict) (key : String),
      insertParts d ps key = .ok d2 →
      ∀ path, ((dirAt d2 path).isSome = true ↔
        ((dirAt d path).isSome = true ∨ (¬ ps = [] ∧ path <+: ps.dropLast))) := by
  intro ps
  induction ps with
  | nil =>
    intro d d2 key hok path
    have h1 : (Except.ok d : Except String PyDict) = .ok d2 := hok
    injection h1 with h2
    subst h2
    simp
  | cons p rest ih =>
    cases rest with
    | nil =>
      intro d d2 key hok path
      cases hg : getVal d "__files__" with
      | none =>
        rw [insertParts_last_none hg] at hok
        injection hok with h2
        subst h2
        cases path with
        | nil => simp [dirAt]
        | cons q path' =>
          by_cases hq : q = "__files__"
          · rw [hq]
            rw [dirAt_cons_list (getVal_putVal_self d "__files__" (.list [key])) path']
            rw [dirAt_cons_none hg path']
            simp [List.dropLast]
          · have hgv := getVal_putVal_other d "__files__" q (.list [key]) hq
            rw [dirAt_cons_congr hgv path']
            simp [List.dropLast]
      | some v =>
        cases v with
        | dict c =>
          rw [insertParts_last_dict hg] at hok
          exact Except.noConfusion hok
        | list fs =>
          rw [insertParts_last_list hg] at hok
          injection hok with h2
          subst h2
          cases path with
          | nil => simp [dirAt]
          | cons q path' =>
            by_cases hq : q = "__files__"
            · rw [hq]
              rw [dirAt_cons_list
                (getVal_putVal_self d "__files__" (.list (fs ++ [key]))) path']
              rw [dirAt_cons_list hg path']
              simp [List.dropLast]
            · have hgv := getVal_putVal_other d "__files__" q (.list (fs ++ [key])) hq
              rw [dirAt_cons_congr hgv path']
              simp [List.dropLast]
    | cons r1 r2 =>
      intro d d2 key hok path
      cases hg : getVal d p with
      | some v =>
        cases v with
        | list fs =>
          rw [insertParts_cons_list hg] at hok
          exact Except.noConfusion hok
        | dict child =>
          cases hrec : insertParts child (r1 :: r2) key with
          | error e =>
            rw [insertParts_cons_dict_err hg hrec] at hok
            exact Except.noConfusion hok
          | ok c2 =>
            rw [insertParts_cons_dict_ok hg hrec] at hok
            injection hok with h2
            subst h2
            have hdl : (p :: r1 :: r2).dropLast = p :: (r1 :: r2).dropLast := rfl
            cases path with
            | nil => simp [dirAt]
            | cons q path' =>
              by_cases hq : q = p
              · rw [hq]
                rw [dirAt_cons_dict (getVal_putVal_self d p (.dict c2)) path']
                rw [dirAt_cons_dict hg path']
                have hih := ih child c2 key hrec path'
                rw [hih, hdl]
                simp [List.cons_prefix_cons]
              · have hgv := getVal_putVal_other d p q (.dict c2) hq
                rw [dirAt_cons_congr hgv path', hdl]
                simp [List.cons_prefix_cons, hq]
      | none =>
        cases hrec : insertParts [] (r1 :: r2) key with
        | error e =>
          rw [insertParts_cons_none_err hg hrec] at hok
          exact Except.noConfusion hok
        | ok c2 =>
          rw [insertParts_cons_none_ok hg hrec] at hok
          injection hok with h2
          subst h2
          have hdl : (p :: r1 :: r2).dropLast = p :: (r1 :: r2).dropLast := rfl
          cases path with
          | nil => simp [dirAt]
          | cons q path' =>
            by_cases hq : q = p
            · rw [hq]
              rw [dirAt_cons_dict (getVal_putVal_self d p (.dict c2)) path']
              rw [dirAt_cons_none hg path']
              have hih := ih [] c2 key hrec path'
              rw [hih, hdl]
              cases path' with
              | nil => simp [dirAt, List.cons_prefix_cons]
              | cons q2 path2 =>
                rw [dirAt_cons_none (show getVal ([] : PyDict) q2 = none from rfl) path2]
                simp [List.cons_prefix_cons]
            · have hgv := getVal_putVal_other d p q (.dict c2) hq
              rw [dirAt_cons_congr hgv path', hdl]
              simp [List.cons_prefix_cons, hq]

/-- File-entry characterization of one successful insertion. -/
theorem filesAt_insertParts :
    ∀ (ps : List String) (d d2 : PyDict) (key : String),
      insertParts d ps key = .ok d2 →
      ∀ (path : List String) (kk : String),
        (kk ∈ filesAt d2 path ↔
          (kk ∈ filesAt d path ∨ (¬ ps = [] ∧ path = ps.dropLast ∧ kk = key))) := by
  intro ps
  induction ps with
  | nil =>
    intro d d2 key hok path kk
    have h1 : (Except.ok d : Except String PyDict) = .ok d2 := hok
    injection h1 with h2
    subst h2
    simp
  | cons p rest ih =>
    cases rest with
    | nil =>
      intro d d2 key hok path kk
      cases hg : getVal d "__files__" with
      | none =>
        rw [insertParts_last_none hg] at hok
        injection hok with h2
        subst h2
        cases path with
        | nil =>
          rw [filesAt_nil_list (getVal_putVal_self d "__files__" (.list [key]))]
          rw [filesAt_nil_none hg]
          simp [List.dropLast]
        | cons q path' =>
          by_cases hq : q = "__files__"
          · rw [hq]
            rw [filesAt_cons_list (getVal_putVal_self d "__files__" (.list [key])) path']
            rw [filesAt_cons_none hg path']
            simp
          · have hgv := getVal_putVal_other d "__files__" q (.list [key]) hq
            rw [filesAt_cons_congr hgv path']
            simp [List.dropLast]
      | some v =>
        cases v with
        | dict c =>
          rw [insertParts_last_dict hg] at hok
          exact Except.noConfusion hok
        | list fs =>
          rw [insertParts_last_list hg] at hok
          injection hok with h2
          subst h2
          cases path with
          | nil =>
            rw [filesAt_nil_list (getVal_putVal_self d "__files__" (.list (fs ++ [key])))]
            rw [filesAt_nil_list hg]
            simp [List.dropLast]
          | cons q path' =>
            by_cases hq : q = "__files__"
            · rw [hq]
              rw [filesAt_cons_list
                (getVal_putVal_self d "__files__" (.list (fs ++ [key]))) path']
              rw [filesAt_cons_list hg path']
              simp
            · have hgv := getVal_putVal_other d "__files__" q (.list (fs ++ [key])) hq
              rw [filesAt_cons_congr hgv path']
              simp [List.dropLast]
    | cons r1 r2 =>
      intro d d2 key hok path kk
      cases hg : getVal d p with
      | some v =>
        cases v with
        | list fs =>
          rw [insertParts_cons_list hg] at hok
          exact Except.noConfusion hok
        | dict child =>
          cases hrec : insertParts child (r1 :: r2) key with
          | error e =>
            rw [insertParts_cons_dict_err hg hrec] at hok
            exact Except.noConfusion hok
          | ok c2 =>
            rw [insertParts_cons_dict_ok hg hrec] at hok
            injection hok with h2
            subst h2
            have hdl : (p :: r1 :: r2).dropLast = p :: (r1 :: r2).dropLast := rfl
            cases path with
            | nil =>
              have heq : filesAt (putVal d p (.dict c2)) [] = filesAt d [] := by
                by_cases hp : p = "__files__"
                · subst hp
                  rw [filesAt_nil_dict (getVal_putVal_self d "__files__" (.dict c2))]
                  rw [filesAt_nil_dict hg]
                · exact filesAt_nil_congr
                    (getVal_putVal_other d p "__files__" (.dict c2) (fun h => hp h.symm))
              rw [heq, hdl]
              simp
            | cons q path' =>
              by_cases hq : q = p
              · rw [hq]
                rw [filesAt_cons_dict (getVal_putVal_self d p (.dict c2)) path']
                rw [filesAt_cons_dict hg path']
                have hih := ih child c2 key hrec path' kk
                rw [hih, hdl]
                simp
              · have hcong := filesAt_cons_congr
                  (getVal_putVal_other d p q (.dict c2) hq) path'
                rw [hcong, hdl]
                simp [hq]
      | none =>
        cases hrec : insertParts [] (r1 :: r2) key with
        | error e =>
          rw [insertParts_cons_none_err hg hrec] at hok
          exact Except.noConfusion hok
        | ok c2 =>
          rw [insertParts_cons_none_ok hg hrec] at hok
          injection hok with h2
          subst h2
          have hdl : (p :: r1 :: r2).dropLast = p :: (r1 :: r2).dropLast := rfl
          cases path with
          | nil =>
            have heq : filesAt (putVal d p (.dict c2)) [] = filesAt d [] := by
              by_cases hp : p = "__files__"
              · subst hp
                rw [filesAt_nil_dict (getVal_putVal_self d "__files__" (.dict c2))]
                rw [filesAt_nil_none hg]
              · exact filesAt_nil_congr
                  (getVal_putVal_other d p "__files__" (.dict c2) (fun h => hp h.symm))
            rw [heq, hdl]
            simp
          | cons q path' =>
            by_cases hq : q = p
            · rw [hq]
              rw [filesAt_cons_dict (getVal_putVal_self d p (.dict c2)) path']
              rw [filesAt_cons_none hg path']
              have hih := ih [] c2 key hrec path' kk
              rw [hih, filesAt_empty, hdl]
              simp
            · have hcong := filesAt_cons_congr
                (getVal_putVal_other d p q (.dict c2) hq) path'
              rw [hcong, hdl]
              simp [hq]

/-- When no key of the listing has a non-final `__files__` segment, the whole
fold succeeds and keeps the tree well-formed. -/
theorem build_fold_ok (b : String) :
    ∀ (files : List String) (d : PyDict), WFdict d →
      (∀ key ∈ files, "__files__" ∉ (relParts b key).dropLast) →
      ∃ t, files.foldlM (fun acc key => insertParts acc (relParts b key) key) d = .ok t ∧
        WFdict t := by
  intro files
  induction files with
  | nil =>
    intro d hwf _
    exact ⟨d, rfl, hwf⟩
  | cons f1 rest ih =>
    intro d hwf hnc
    have hnc1 : "__files__" ∉ (relParts b f1).dropLast :=
      hnc f1 (List.mem_cons_self _ _)
    rcases insertParts_total (relParts b f1) hnc1 d f1 hwf with ⟨d1, hstep, hwf1⟩
    rcases ih d1 hwf1 (fun key hk => hnc key (List.mem_cons_of_mem _ hk)) with
      ⟨t, hfold, hwft⟩
    refine ⟨t, ?_, hwft⟩
    simp only [List.foldlM_cons, hstep]
    exact hfold

/-- The directory characterization of the whole fold. -/
theorem dirAt_build_fold (b : String) :
    ∀ (files : List String) (d t : PyDict),
      files.foldlM (fun acc key => insertParts acc (relParts b key) key) d = .ok t →
      ∀ path, ((dirAt t path).isSome = true ↔
        ((dirAt d path).isSome = true ∨
          ∃ key, key ∈ files ∧ ¬ relParts b key = [] ∧
            path <+: (relParts b key).dropLast)) := by
  intro files
  induction files with
  | nil =>
    intro d t hok path
    rw [List.foldlM_nil] at hok
    have h1 : (Except.ok d : Except String PyDict) = .ok t := hok
    injection h1 with h2
    subst h2
    simp
  | cons f1 rest ih =>
    intro d t hok path
    simp only [List.foldlM_cons] at hok
    cases hstep : insertParts d (relParts b f1) f1 with
    | error e =>
      rw [hstep] at hok
      have h1 : (Except.error e : Except String PyDict) = .ok t := hok
      exact Except.noConfusion h1
    | ok d1 =>
      rw [hstep] at hok
      have hok2 : rest.foldlM (fun acc key => insertParts acc (relParts b key) key) d1
          = .ok t := hok
      have hins := dirAt_insertParts (relParts b f1) d d1 f1 hstep path
      rw [ih d1 t hok2 path, hins]
      constructor
      · rintro ((h | h) | ⟨key, hk, hrest⟩)
        · exact Or.inl h
        · exact Or.inr ⟨f1, List.mem_cons_self f1 rest, h⟩
        · exact Or.inr ⟨key, List.mem_cons_of_mem f1 hk, hrest⟩
      · rintro (h | ⟨key, hk, hrest⟩)
        · exact Or.inl (Or.inl h)
        · rcases List.mem_cons.mp hk with rfl | hk2
          · exact Or.inl (Or.inr hrest)
          · exact Or.inr ⟨key, hk2, hrest⟩

/-- The file-entry characterization of the whole fold. -/
theorem filesAt_build_fold (b : String) :
    ∀ (files : List String) (d t : PyDict),
      files.foldlM (fun acc key => insertParts acc (relParts b key) key) d = .ok t →
      ∀ (path : List String) (kk : String),
        (kk ∈ filesAt t path ↔
          (kk ∈ filesAt d path ∨
            ∃ key, key ∈ files ∧ ¬ relParts b key = [] ∧
              path = (relParts b key).dropLast ∧ kk = key)) := by
  intro files
  induction files with
  | nil =>
    intro d t hok path kk
    rw [List.foldlM_nil] at hok
    have h1 : (Except.ok d : Except String PyDict) = .ok t := hok
    injection h1 with h2
    subst h2
    simp
  | cons f1 rest ih =>
    intro d t hok path kk
    simp only [List.foldlM_cons] at hok
    cases hstep : insertParts d (relParts b f1) f1 with
    | error e =>
      rw [hstep] at hok
      have h1 : (Except.error e : Except String PyDict) = .ok t := hok
      exact Except.noConfusion h1
    | ok d1 =>
      rw [hstep] at hok
      have hok2 : rest.foldlM (fun acc key => insertParts acc (relParts b key) key) d1
          = .ok t := hok
      have hins := filesAt_insertParts (relParts b f1) d d1 f1 hstep path kk
      rw [ih d1 t hok2 path kk, hins]
      constructor
      · rintro ((h | ⟨hne, hpath, hkk⟩) | ⟨key, hk, hrest⟩)
        · exact Or.inl h
        · exact Or.inr ⟨f1, List.mem_cons_self f1 rest, hne, hpath, hkk⟩
        · exact Or.inr ⟨key, List.mem_cons_of_mem f1 hk, hrest⟩
      · rintro (h | ⟨key, hk, hrest⟩)
        · exact Or.inl (Or.inl h)
        · rcases List.mem_cons.mp hk with rfl | hk2
          · exact Or.inl (Or.inr hrest)
          · exact Or.inr ⟨key, hk2, hrest⟩

/-! #### Claim C8 -/

/-- C8 counterexample: `build_tree` is not total.  On `["a", "__files__/b"]`
the first key stores the list `["a"]` under the top-level dict key
`__files__`; the second key's non-final segment `__files__` then makes
`cur.setdefault(p, {})` return that list, and the next loop step calls
`.setdefault` on it, raising `AttributeError` (src/app.py lines 1040-1042).
In the reverse order `.append` is called on a dict and also raises. -/
theorem C8_counterexample :
    (build_tree ["a", "__files__/b"] ""
        = .error "AttributeError: 'list' object has no attribute 'setdefault'") ∧
      build_tree ["__files__/b", "a"] ""
        = .error "AttributeError: 'dict' object has no attribute 'append'" :=
  ⟨rfl, rfl⟩

/-- C8 (corrected): `build_tree` is deterministic, and on every listing in
which no key has a non-final path segment named `__files__` it returns a tree
(no `AttributeError` is raised) and is order-independent: permuting the key
sequence yields an isomorphic tree — the same directory nodes and the same
set of file entries under each directory.  Without that restriction the
function can raise, because the `__files__` files-list key shares the dict
namespace with directory names. -/
theorem C8_build_tree_order_independent :
    (∀ (files : List String) (b : String), build_tree files b = build_tree files b) ∧
    (∀ (files : List String) (b : String),
      (∀ key ∈ files, "__files__" ∉ (relParts b key).dropLast) →
      ∃ t, build_tree files b = .ok t) ∧
    (∀ (files1 files2 : List String) (b : String),
      (∀ key ∈ files1, "__files__" ∉ (relParts b key).dropLast) →
      files1.Perm files2 →
      ∃ t1 t2, build_tree files1 b = .ok t1 ∧ build_tree files2 b = .ok t2 ∧
        treeIso t1 t2) := by
  refine ⟨fun _ _ => rfl, ?_, ?_⟩
  · intro files b hnc
    rcases build_fold_ok b files [] WFdict_nil hnc with ⟨t, hok, _⟩
    exact ⟨t, hok⟩
  · intro l1 l2 b hnc1 hperm
    have hnc2 : ∀ key ∈ l2, "__files__" ∉ (relParts b key).dropLast :=
      fun key hk => hnc1 key (hperm.mem_iff.mpr hk)
    rcases build_fold_ok b l1 [] WFdict_nil hnc1 with ⟨t1, hok1, _⟩
    rcases build_fold_ok b l2 [] WFdict_nil hnc2 with ⟨t2, hok2, _⟩
    refine ⟨t1, t2, hok1, hok2, ?_⟩
    intro path
    constructor
    · have h1 := dirAt_build_fold b l1 [] t1 hok1 path
      have h2 := dirAt_build_fold b l2 [] t2 hok2 path
      have hiff : (dirAt t1 path).isSome = true ↔ (dirAt t2 path).isSome = true := by
        rw [h1, h2]
        constructor
        · rintro (h | ⟨key, hk, hrest⟩)
          · exact Or.inl h
          · exact Or.inr ⟨key, hperm.mem_iff.mp hk, hrest⟩
        · rintro (h | ⟨key, hk, hrest⟩)
          · exact Or.inl h
          · exact Or.inr ⟨key, hperm.mem_iff.mpr hk, hrest⟩
      cases hb1 : (dirAt t1 path).isSome <;> cases hb2 : (dirAt t2 path).isSome
      · rfl
      · exact absurd (hiff.mpr hb2) (by rw [hb1]; simp)
      · exact absurd (hiff.mp hb1) (by rw [hb2]; simp)
      · rfl
    · intro kk
      rw [filesAt_build_fold b l1 [] t1 hok1 path kk,
        filesAt_build_fold b l2 [] t2 hok2 path kk]
      rw [filesAt_empty]
      constructor
      · rintro (h | ⟨key, hk, hrest⟩)
        · simp at h
        · exact Or.inr ⟨key, hperm.mem_iff.mp hk, hrest⟩
      · rintro (h | ⟨key, hk, hrest⟩)
        · simp at h
        · exact Or.inr ⟨key, hperm.mem_iff.mpr hk, hrest⟩

/-- Witness for C8: a concrete three-key listing with no `__files__` segment
builds a tree, and a permutation of it builds an isomorphic tree. -/
theorem C8_build_tree_order_independent_witness :
    (∃ t, build_tree ["docs/a.md", "b.md", "docs/sub/c.md"] "" = .ok t) ∧
      ∃ t1 t2, build_tree ["docs/a.md", "b.md", "docs/sub/c.md"] "" = .ok t1 ∧
        build_tree ["docs/sub/c.md", "docs/a.md", "b.md"] "" = .ok t2 ∧
        treeIso t1 t2 :=
  ⟨C8_build_tree_order_independent.2.1 _ "" (by decide),
    C8_build_tree_order_independent.2.2 _ _ "" (by decide) (by decide)⟩

/-! #### Claim C4: shim lemmas -/

theorem runAttempts_first_ok {α : Type} (plain : CallOutcome α)
    (l1 : List (String × CallOutcome α)) (lbl : String) (r : α)
    (l2 : List (String × CallOutcome α)) (errs : List String) (last : Option String)
    (h : ∀ p ∈ l1, ∃ m, p.2 = CallOutcome.typeErr m) :
    runAttempts plain (l1 ++ (lbl, .ok r) :: l2) errs last = .ok r := by
  induction l1 generalizing errs last with
  | nil => rfl
  | cons p rest ih =>
    rcases h p (List.mem_cons_self p rest) with ⟨m, hm⟩
    cases p with
    | mk plbl po =>
      have hm' : po = CallOutcome.typeErr m := hm
      subst hm'
      rw [List.cons_append, runAttempts]
      exact ih _ _ (fun q hq => h q (List.mem_cons_of_mem _ hq))

theorem runAttempts_all_typeErr {α : Type} (plain : CallOutcome α)
    (l : List (String × CallOutcome α)) (lbl m : String) :
    ∀ (errs : List String) (last : Option String),
    (∀ p ∈ l, ∃ m', p.2 = CallOutcome.typeErr m') →
    runAttempts plain (l ++ [(lbl, .typeErr m)]) errs last = .typeErr
      (m ++ " (search attempts: "
        ++ String.intercalate "; "
          (errs ++ (l ++ [(lbl, (.typeErr m : CallOutcome α))]).map
            (fun p => p.1 ++ ": " ++ typeMsg p.2))
        ++ ")") := by
  induction l with
  | nil =>
    intro errs last h
    rw [List.nil_append, runAttempts, runAttempts]
    simp [typeMsg]
  | cons p rest ih =>
    intro errs last h
    rcases h p (List.mem_cons_self p rest) with ⟨m', hm⟩
    cases p with
    | mk plbl po =>
      have hm' : po = CallOutcome.typeErr m' := hm
      subst hm'
      rw [List.cons_append, runAttempts]
      rw [ih _ _ (fun q hq => h q (List.mem_cons_of_mem _ hq))]
      congr 2
      simp [typeMsg, List.append_assoc]

theorem runAttempts_typeErr_all {α : Type} (plain : CallOutcome α) :
    ∀ (l : List (String × CallOutcome α)) (errs : List String) (last : Option String)
      (m : String), runAttempts plain l errs last = .typeErr m →
      (l = [] ∨ ∀ p ∈ l, ∃ m', p.2 = CallOutcome.typeErr m') := by
  intro l
  induction l with
  | nil => exact fun _ _ _ _ => Or.inl rfl
  | cons p rest ih =>
    intro errs last m hrun
    cases p with
    | mk plbl po =>
      right
      cases po with
      | ok r => rw [runAttempts] at hrun; exact absurd hrun (by simp)
      | exn e => rw [runAttempts] at hrun; exact absurd hrun (by simp)
      | typeErr tm =>
        intro q hq
        rcases List.mem_cons.mp hq with rfl | hq'
        · exact ⟨tm, rfl⟩
        · rw [runAttempts] at hrun
          rcases ih _ _ _ hrun with rfl | hall
          · simp at hq'
          · exact hall q hq'

/-! #### Claim C4 -/

/-- C4: for a non-empty parameter mapping, `_es_search_request` works through
the ordered attempt list `searchAttempts` — native kwargs, `params=`,
`query_params=`, the options-bound clients (acquired by each known options
call) with their retry shapes, then the raw transport request.  (1) The first
attempt that does not raise the `TypeError` shape-error class is returned and
no later attempt matters (the tail of the list is arbitrary); (2) if every
attempt raises the shape-error class, the call raises a `TypeError` carrying
the last message and all recorded attempts' messages concatenated; (3) the
call produces a `TypeError` only when every attempted calling convention
raised one. -/
theorem C4_es_search_shape_negotiation :
    (∀ {α : Type} (es : EsClientModel α) (l1 : List (String × CallOutcome α)) (lbl : String)
      (r : α) (l2 : List (String × CallOutcome α)),
      searchAttempts es = l1 ++ (lbl, .ok r) :: l2 →
      (∀ p ∈ l1, ∃ m, p.2 = CallOutcome.typeErr m) →
      _es_search_request es false = .ok r) ∧
    (∀ {α : Type} (es : EsClientModel α) (l : List (String × CallOutcome α)) (lbl m : String),
      searchAttempts es = l ++ [(lbl, .typeErr m)] →
      (∀ p ∈ l, ∃ m', p.2 = CallOutcome.typeErr m') →
      _es_search_request es false = .typeErr
        (m ++ " (search attempts: "
          ++ String.intercalate "; "
            ((l ++ [(lbl, (.typeErr m : CallOutcome α))]).map
              (fun p => p.1 ++ ": " ++ typeMsg p.2))
          ++ ")")) ∧
    (∀ {α : Type} (es : EsClientModel α) (m : String),
      _es_search_request es false = .typeErr m →
      ∀ p ∈ searchAttempts es, ∃ m', p.2 = CallOutcome.typeErr m') := by
  refine ⟨?_, ?_, ?_⟩
  · intro α es l1 lbl r l2 hdec hall
    show runAttempts es.plainSearch (searchAttempts es) [] none = .ok r
    rw [hdec]
    exact runAttempts_first_ok _ _ _ _ _ _ _ hall
  · intro α es l lbl m hdec hall
    show runAttempts es.plainSearch (searchAttempts es) [] none = _
    rw [hdec]
    have := runAttempts_all_typeErr es.plainSearch l lbl m [] none hall
    simpa using this
  · intro α es m hrun p hp
    have hres : runAttempts es.plainSearch (searchAttempts es) [] none
        = CallOutcome.typeErr m := hrun
    rcases runAttempts_typeErr_all es.plainSearch (searchAttempts es) [] none m hres with
      hnil | hall
    · rw [hnil] at hp
      simp at hp
    · exact hall p hp

/-- Witness for C4: a client whose native and `params=` shapes raise
`TypeError` and whose `query_params=` shape succeeds returns that third
attempt's result; a client whose every shape raises `TypeError` (options not
callable, transport present) raises the concatenated diagnostic. -/
theorem C4_es_search_shape_negotiation_witness :
    _es_search_request
      (⟨.typeErr "e1", .typeErr "e2", .ok 42, false, .typeErr "x", .typeErr "x", .typeErr "x",
        false, .typeErr "x", .ok 0⟩ : EsClientModel Nat) false = .ok 42 ∧
    _es_search_request
      (⟨.typeErr "e1", .typeErr "e2", .typeErr "e3", false, .typeErr "x", .typeErr "x",
        .typeErr "x", true, .typeErr "e4", .ok 0⟩ : EsClientModel Nat) false
      = .typeErr ("e4 (search attempts: es.search(**search_params): e1; "
          ++ "es.search(params=…): e2; es.search(query_params=…): e3; "
          ++ "transport.perform_request: e4)") := by
  constructor
  · exact C4_es_search_shape_negotiation.1 _
      [("es.search(**search_params)", .typeErr "e1"), ("es.search(params=…)", .typeErr "e2")]
      "es.search(query_params=…)" 42 [] (by decide)
      (by
        intro p hp
        rcases List.mem_cons.mp hp with rfl | hp'
        · exact ⟨"e1", rfl⟩
        · rcases List.mem_cons.mp hp' with rfl | hp''
          · exact ⟨"e2", rfl⟩
          · simp at hp'')
  · have h := C4_es_search_shape_negotiation.2.1
      (⟨.typeErr "e1", .typeErr "e2", .typeErr "e3", false, .typeErr "x", .typeErr "x",
        .typeErr "x", true, .typeErr "e4", .ok 0⟩ : EsClientModel Nat)
      [("es.search(**search_params)", .typeErr "e1"), ("es.search(params=…)", .typeErr "e2"),
       ("es.search(query_params=…)", .typeErr "e3")]
      "transport.perform_request" "e4" (by decide)
      (by
        intro p hp
        rcases List.mem_cons.mp hp with rfl | hp'
        · exact ⟨"e1", rfl⟩
        · rcases List.mem_cons.mp hp' with rfl | hp''
          · exact ⟨"e2", rfl⟩
          · rcases List.mem_cons.mp hp'' with rfl | hp3
            · exact ⟨"e3", rfl⟩
            · simp at hp3)
    rw [h]
    rfl

/-! #### Claim C6 -/

/-- C6 counterexample: the HTML `<img>` pass rewrites `src="a.txt"` even
though `a.txt` neither ends in a recognized image extension nor starts with an
`images/` prefix — the claim says such a reference is left character-for-
character unchanged. -/
theorem C6_counterexample :
    rewrite_image_links "http://host/pub" "<img src=\"a.txt\">".data
        = "<img src=\"http://host/pub/a.txt\">".data ∧
    rewrite_image_links "http://host/pub" "<img src=\"a.txt\">".data
        ≠ "<img src=\"a.txt\">".data := by
  constructor
  · decide
  · decide

/-- C6 (amended): Markdown image links are rewritten exactly when the stripped
URL is not an absolute `http(s)` URL and it ends in a recognized image
extension or begins with an `images/` (or `./images/`, `../images/`) prefix;
HTML `<img src=...>` references are rewritten whenever the stripped URL is not
an absolute `http(s)` URL, with no extension/prefix condition; absolute
`http(s)` URLs are always left unchanged. -/
theorem C6_image_link_rewrite :
    (∀ (base : String) (alt urlRaw : List Char),
      isAbsUrl (pyStrip urlRaw) = true → replMd base alt urlRaw = mdGroup0 alt urlRaw) ∧
    (∀ (base : String) (alt urlRaw : List Char),
      isAbsUrl (pyStrip urlRaw) = false → shouldRewriteMd (pyStrip urlRaw) = true →
      replMd base alt urlRaw
        = '!' :: '[' :: alt ++ ']' :: '('
            :: _to_public_image_url base (pyStrip urlRaw) ++ [')']) ∧
    (∀ (base : String) (alt urlRaw : List Char),
      isAbsUrl (pyStrip urlRaw) = false → shouldRewriteMd (pyStrip urlRaw) = false →
      replMd base alt urlRaw = mdGroup0 alt urlRaw) ∧
    (∀ (base : String) (g0 url : List Char),
      isAbsUrl (pyStrip url) = true → replImg base g0 url = g0) ∧
    (∀ (base : String) (g0 url : List Char),
      isAbsUrl (pyStrip url) = false →
      replImg base g0 url = strReplace url (_to_public_image_url base (pyStrip url)) g0) ∧
    rewrite_image_links "http://host/pub" "![x](images/1.png)".data
        = "![x](http://host/pub/images/1.png)".data ∧
    rewrite_image_links "http://host/pub" "![x](http://elsewhere/1.png)".data
        = "![x](http://elsewhere/1.png)".data := by
  refine ⟨?_, ?_, ?_, ?_, ?_, by decide, by decide⟩
  · intro base alt urlRaw h
    rw [replMd]
    simp [h]
  · intro base alt urlRaw h1 h2
    rw [replMd]
    simp [h1, h2]
  · intro base alt urlRaw h1 h2
    rw [replMd]
    simp [h1, h2]
  · intro base g0 url h
    rw [replImg]
    simp [h]
  · intro base g0 url h
    rw [replImg]
    simp [h]

/-- Witness for C6: the amended per-match rules evaluated at concrete URLs. -/
theorem C6_image_link_rewrite_witness :
    replMd "http://host/pub" "x".data "http://elsewhere/1.png".data
        = mdGroup0 "x".data "http://elsewhere/1.png".data ∧
    replMd "http://host/pub" "x".data "images/1.png".data
        = "![x](http://host/pub/images/1.png)".data ∧
    replMd "http://host/pub" "y".data "doc/readme.txt".data
        = mdGroup0 "y".data "doc/readme.txt".data ∧
    replImg "http://host/pub" "<img src=\"http://h/y.png\"".data "http://h/y.png".data
        = "<img src=\"http://h/y.png\"".data ∧
    replImg "http://host/pub" "<img src=\"a.txt\"".data "a.txt".data
        = "<img src=\"http://host/pub/a.txt\"".data := by
  refine ⟨?_, ?_, ?_, ?_, ?_⟩
  · exact C6_image_link_rewrite.1 _ _ _ (by decide)
  · rw [C6_image_link_rewrite.2.1 _ _ _ (by decide) (by decide)]
    decide
  · exact C6_image_link_rewrite.2.2.1 _ _ _ (by decide) (by decide)
  · exact C6_image_link_rewrite.2.2.2.1 _ _ _ (by decide)
  · rw [C6_image_link_rewrite.2.2.2.2.1 _ _ _ (by decide)]
    decide

/-! #### Claim C2: cache-coherence lemmas -/

theorem lookup_erase_append_self (od : List (String × α)) (k : String) (v : α) :
    lookupKey (eraseKey od k ++ [(k, v)]) k = some v := by
  rw [lookupKey, List.find?_append]
  have h1 : (eraseKey od k).find? (fun p => p.1 = k) = none := by
    rw [List.find?_eq_none]
    intro p hp
    rcases List.mem_filter.mp hp with ⟨-, hne⟩
    simpa using hne
  rw [h1]
  simp [List.find?_cons]

theorem lookup_set_self (s : LRUState α) (k : String) (v : α) (hcap : 0 < s.cap) :
    lookupKey (LRU.set s k v).od k = some v := by
  rw [LRU.set_od]
  split
  case isTrue h =>
    have hlen : 1 ≤ (eraseKey s.od k).length := by
      simp only [List.length_append, List.length_singleton] at h
      omega
    rw [List.drop_append_of_le_length hlen, lookupKey, List.find?_append]
    have h1 : ((eraseKey s.od k).drop 1).find? (fun p => p.1 = k) = none := by
      rw [List.find?_eq_none]
      intro p hp
      rcases List.mem_filter.mp (List.mem_of_mem_drop hp) with ⟨-, hne⟩
      simpa using hne
    rw [h1]
    simp [List.find?_cons]
  case isFalse h => exact lookup_erase_append_self _ _ _

theorem get_document_hit {env : FormatEnv} {cache : LRUState CacheVal} {key : String}
    {known : Option String} {v : CacheVal} {docType : String}
    (hdt : lookupStr SUPPORTED_EXTS (extOf key) = some docType)
    (hv : lookupKey cache.od key = some v)
    (he : v.etag = observedEtag env key known) :
    get_document env cache key known
      = .ok (v, ⟨cache.cap, eraseKey cache.od key ++ [(key, v)]⟩, ⟨false, false⟩) := by
  have hget : LRU.get cache key
      = (some v, ⟨cache.cap, eraseKey cache.od key ++ [(key, v)]⟩) := by
    rw [LRU.get, hv]
  simp only [get_document, hdt, hget, he, if_pos]

theorem get_document_cold_of_none {env : FormatEnv} {cache : LRUState CacheVal}
    {key : String} {known : Option String} {docType : String}
    (hdt : lookupStr SUPPORTED_EXTS (extOf key) = some docType)
    (hv : lookupKey cache.od key = none) :
    get_document env cache key known
      = coldResult env cache key docType (observedEtag env key known) := by
  have hget : LRU.get cache key = (none, cache) := by rw [LRU.get, hv]
  simp only [get_document, hdt, hget]

theorem get_document_cold_of_mismatch {env : FormatEnv} {cache : LRUState CacheVal}
    {key : String} {known : Option String} {v : CacheVal} {docType : String}
    (hdt : lookupStr SUPPORTED_EXTS (extOf key) = some docType)
    (hv : lookupKey cache.od key = some v)
    (he : ¬ v.etag = observedEtag env key known) :
    get_document env cache key known
      = coldResult env (⟨cache.cap, eraseKey cache.od key ++ [(key, v)]⟩ : LRUState CacheVal)
          key docType (observedEtag env key known) := by
  have hget : LRU.get cache key
      = (some v, ⟨cache.cap, eraseKey cache.od key ++ [(key, v)]⟩) := by
    rw [LRU.get, hv]
  simp only [get_document, hdt, hget, he, if_neg]
  simp

theorem coldResult_ok {env : FormatEnv} {cache1 : LRUState CacheVal}
    {key docType etag : String} {val : CacheVal} {cache' : LRUState CacheVal}
    {tr : GetDocTrace}
    (h : coldResult env cache1 key docType etag = .ok (val, cache', tr)) :
    ∃ r, docConvert env docType (env.fetch key) = .ok r ∧
      val = ⟨etag, docType, r.1, r.2.1, r.2.2⟩ ∧
      cache' = LRU.set cache1 key val ∧ tr = ⟨true, true⟩ := by
  rw [coldResult] at h
  cases hc : docConvert env docType (env.fetch key) with
  | error e => rw [hc] at h; exact absurd h (by simp)
  | ok r =>
    rw [hc] at h
    simp only [Except.ok.injEq, Prod.mk.injEq] at h
    exact ⟨r, rfl, h.1.symm, by rw [← h.2.1, ← h.1], h.2.2.symm⟩

theorem get_document_error_of_no_ext {env : FormatEnv} {cache : LRUState CacheVal}
    {key : String} {known : Option String}
    (hdt : lookupStr SUPPORTED_EXTS (extOf key) = none) :
    get_document env cache key known = .error ("不支持的文件类型：" ++ extOf key) := by
  simp only [get_document, hdt]

/-! #### Claim C2 -/

/-- C2: (1) when the cached entry's fingerprint equals the observed
fingerprint (stat-supplied or caller-supplied), `get_document` returns the
cached tuple, promotes it, and neither fetches the object bytes nor runs any
conversion; (2) on a miss or fingerprint mismatch, a successful call fetches
and converts the bytes, stores the result in the cache keyed by the freshly
observed fingerprint (at most-recently-used position), and returns it; (3)
hence a second call observing the same fingerprint immediately after any
successful call is a pure cache hit — no second conversion per fingerprint
change. -/
theorem C2_fingerprint_cache_coherence :
    (∀ (env : FormatEnv) (cache : LRUState CacheVal) (key : String) (known : Option String)
      (v : CacheVal) (docType : String),
      lookupStr SUPPORTED_EXTS (extOf key) = some docType →
      lookupKey cache.od key = some v →
      v.etag = observedEtag env key known →
      get_document env cache key known
        = .ok (v, ⟨cache.cap, eraseKey cache.od key ++ [(key, v)]⟩, ⟨false, false⟩)) ∧
    (∀ (env : FormatEnv) (cache : LRUState CacheVal) (key : String) (known : Option String)
      (val : CacheVal) (cache' : LRUState CacheVal) (tr : GetDocTrace),
      (∀ v, lookupKey cache.od key = some v → ¬ v.etag = observedEtag env key known) →
      get_document env cache key known = .ok (val, cache', tr) →
      val.etag = observedEtag env key known ∧ tr = ⟨true, true⟩ ∧
        cache' = LRU.set (LRU.get cache key).2 key val) ∧
    (∀ (env : FormatEnv) (cache : LRUState CacheVal) (key : String)
      (known known₂ : Option String) (val : CacheVal) (cache' : LRUState CacheVal)
      (tr : GetDocTrace),
      0 < cache.cap →
      get_document env cache key known = .ok (val, cache', tr) →
      observedEtag env key known₂ = val.etag →
      get_document env cache' key known₂
        = .ok (val, ⟨cache'.cap, eraseKey cache'.od key ++ [(key, val)]⟩, ⟨false, false⟩)) := by
  have hdtOf : ∀ (env : FormatEnv) (cache : LRUState CacheVal) (key : String)
      (known : Option String) (res), get_document env cache key known = .ok res →
      ∃ docType, lookupStr SUPPORTED_EXTS (extOf key) = some docType := by
    intro env cache key known res h
    cases hdt : lookupStr SUPPORTED_EXTS (extOf key) with
    | none => rw [get_document_error_of_no_ext hdt] at h; exact absurd h (by simp)
    | some docType => exact ⟨docType, rfl⟩
  refine ⟨?_, ?_, ?_⟩
  · intro env cache key known v docType hdt hv he
    exact get_document_hit hdt hv he
  · intro env cache key known val cache' tr hmis hok
    rcases hdtOf _ _ _ _ _ hok with ⟨docType, hdt⟩
    cases hv : lookupKey cache.od key with
    | none =>
      rw [get_document_cold_of_none hdt hv] at hok
      rcases coldResult_ok hok with ⟨r, -, hval, hcache, htr⟩
      have hget2 : (LRU.get cache key).2 = cache := by rw [LRU.get, hv]
      refine ⟨by rw [hval], htr, ?_⟩
      rw [hget2]
      exact hcache
    | some v =>
      rw [get_document_cold_of_mismatch hdt hv (hmis v hv)] at hok
      rcases coldResult_ok hok with ⟨r, -, hval, hcache, htr⟩
      have hget2 : (LRU.get cache key).2
          = (⟨cache.cap, eraseKey cache.od key ++ [(key, v)]⟩ : LRUState CacheVal) := by
        rw [LRU.get, hv]
      refine ⟨by rw [hval], htr, ?_⟩
      rw [hget2]
      exact hcache
  · intro env cache key known known₂ val cache' tr hcap hok hobs
    rcases hdtOf _ _ _ _ _ hok with ⟨docType, hdt⟩
    have hv' : lookupKey cache'.od key = some val := by
      cases hv : lookupKey cache.od key with
      | none =>
        rw [get_document_cold_of_none hdt hv] at hok
        rcases coldResult_ok hok with ⟨r, -, -, hcache, -⟩
        rw [hcache]
        exact lookup_set_self _ _ _ hcap
      | some v =>
        by_cases he : v.etag = observedEtag env key known
        · rw [get_document_hit hdt hv he] at hok
          simp only [Except.ok.injEq, Prod.mk.injEq] at hok
          rw [← hok.2.1, ← hok.1]
          exact lookup_erase_append_self _ _ _
        · rw [get_document_cold_of_mismatch hdt hv he] at hok
          rcases coldResult_ok hok with ⟨r, -, -, hcache, -⟩
          rw [hcache]
          have : (0 : Nat) < (⟨cache.cap, eraseKey cache.od key ++ [(key, v)]⟩ :
              LRUState CacheVal).cap := hcap
          exact lookup_set_self _ _ _ this
    exact get_document_hit hdt hv' hobs.symm

/-- Witness for C2: under `envW`, a first `get_document` of `a.md` on an empty
two-slot cache converts and stores the entry; the immediately following call
observing the same fingerprint returns it as a pure hit with no fetch and no
conversion. -/
theorem C2_fingerprint_cache_coherence_witness :
    get_document envW ⟨2, []⟩ "a.md" none
        = .ok (valW, ⟨2, [("a.md", valW)]⟩, ⟨true, true⟩) ∧
    get_document envW ⟨2, [("a.md", valW)]⟩ "a.md" none
        = .ok (valW, ⟨2, [("a.md", valW)]⟩, ⟨false, false⟩) := by
  constructor
  · decide
  · have h := C2_fingerprint_cache_coherence.2.2 envW ⟨2, []⟩ "a.md" none none valW
      ⟨2, [("a.md", valW)]⟩ ⟨true, true⟩ (by decide) (by decide) (by decide)
    exact h.trans (by decide)

/-! #### Claims C7 and C10: legacy-`.doc` degradation lemmas -/

/-- A list containing a non-whitespace character does not strip to empty. -/
theorem pyStrip_ne_nil (l : List Char) (c : Char) (hc : c ∈ l)
    (hns : isPySpace c = false) : pyStrip l ≠ [] := by
  intro h
  have h1 : (l.dropWhile isPySpace).reverse.dropWhile isPySpace = [] := by
    have := congrArg List.reverse h
    simpa [pyStrip] using this
  have h2 : ∀ x ∈ (l.dropWhile isPySpace).reverse, isPySpace x = true :=
    List.dropWhile_eq_nil_iff.mp h1
  have h3 : ∀ x ∈ l.dropWhile isPySpace, isPySpace x = true := by
    intro x hx
    exact h2 x (List.mem_reverse.mpr hx)
  have h4 : ∀ x ∈ l, isPySpace x = true := by
    intro x hx
    rw [← @List.takeWhile_append_dropWhile _ isPySpace l] at hx
    rcases List.mem_append.mp hx with hmem | hmem
    · exact List.mem_takeWhile_imp hmem
    · exact h3 x hmem
  rw [h4 c hc] at hns
  simp at hns

/-- The `doc` branch of the dispatcher when the DOCX attempt does not succeed
and textract raises a shell error: the last-resort decode (or the fixed error
text) is returned as plain text. -/
theorem docConvert_doc_shell {env : FormatEnv} {data : List Nat} {exc : String}
    {f : List Nat → TexResult}
    (hdocx : listIsPre ['P', 'K'] (data.map (fun b => Char.ofNat b)) = false ∨
      ∃ e, _docx_from_bytes env data = .error e)
    (htex : env.textract = some f)
    (hshell : f data = .shellError exc) :
    docConvert env "doc" data = .ok
      ((_decode_possible_text env data).getD (docErrText exc),
        _plain_text_html ((_decode_possible_text env data).getD (docErrText exc)), "") := by
  have htry : (if listIsPre ['P', 'K'] (data.map (fun b => Char.ofNat b)) then
      match _docx_from_bytes env data with
      | .ok r => some r
      | .error _ => none
    else none) = (none : Option (String × String)) := by
    rcases hdocx with h | ⟨e, he⟩
    · rw [h]
      simp
    · split
      · rw [he]
      · rfl
  rw [docConvert]
  rw [if_neg (by decide), if_neg (by decide), if_pos rfl]
  rw [htry, htex]
  dsimp only
  rw [hshell]
  cases hdec : _decode_possible_text env data with
  | some t => simp [Option.getD_some]
  | none => simp [Option.getD_none, docErrText]

/-- One passing decode candidate, spelled out: the decoder accepts the
sample, at least 60% of the first 2000 characters of the newline-normalized
text count as printable, and the stripped text is non-blank. -/
theorem decodeCandidate_some {env : FormatEnv} {sample : List Nat}
    {dec : List Nat → Option String} {text : String}
    (hdec : dec sample = some text)
    (hratio : ¬ 5 * (((normalizeNewlines text.data).take 2000).filter
        (fun ch => env.printable ch || ch = '\n' || ch = '\t')).length <
      3 * ((normalizeNewlines text.data).take 2000).length)
    (htotal : ((normalizeNewlines text.data).take 2000).length ≠ 0)
    (hclean : pyStrip (normalizeNewlines text.data) ≠ []) :
    decodeCandidate env sample dec
      = some (String.mk (pyStrip (normalizeNewlines text.data))) := by
  rw [decodeCandidate, hdec]
  simp only [if_neg htotal, if_neg hratio, if_neg hclean]

/-- The encoding loop tries `utf-8` first: a passing utf-8 candidate is the
result. -/
theorem decode_possible_utf8_first {env : FormatEnv} {data : List Nat} {t : String}
    (hne : ¬ data = []) (hsne : ¬ stripNulls data = [])
    (hcand : decodeCandidate env (stripNulls data) env.utf8Decode = some t) :
    _decode_possible_text env data = some t := by
  rw [_decode_possible_text, if_neg hne]
  simp only [if_neg hsne]
  simp [List.findSome?, hcand]

/-- If any of the four ordered encodings passes, the loop returns some text. -/
theorem decode_possible_of_any {env : FormatEnv} {data : List Nat}
    (hne : ¬ data = []) (hsne : ¬ stripNulls data = [])
    (hany : decodeCandidate env (stripNulls data) env.utf8Decode ≠ none ∨
      decodeCandidate env (stripNulls data) env.gbkDecode ≠ none ∨
      decodeCandidate env (stripNulls data) env.gb2312Decode ≠ none ∨
      decodeCandidate env (stripNulls data) env.latin1Decode ≠ none) :
    _decode_possible_text env data ≠ none := by
  rw [_decode_possible_text, if_neg hne]
  simp only [if_neg hsne]
  cases h1 : decodeCandidate env (stripNulls data) env.utf8Decode with
  | some t => simp [List.findSome?, h1]
  | none =>
    cases h2 : decodeCandidate env (stripNulls data) env.gbkDecode with
    | some t => simp [List.findSome?, h1, h2]
    | none =>
      cases h3 : decodeCandidate env (stripNulls data) env.gb2312Decode with
      | some t => simp [List.findSome?, h1, h2, h3]
      | none =>
        cases h4 : decodeCandidate env (stripNulls data) env.latin1Decode with
        | some t => simp [List.findSome?, h1, h2, h3, h4]
        | none =>
          rcases hany with h | h | h | h <;> simp_all

/-- The common `get_document` step for the degradation path. -/
theorem get_document_doc_shell {env : FormatEnv} {cache : LRUState CacheVal} {key : String}
    {known : Option String} {exc : String} {f : List Nat → TexResult}
    (hext : extOf key = ".doc")
    (hdocx : listIsPre ['P', 'K'] ((env.fetch key).map (fun b => Char.ofNat b)) = false ∨
      ∃ e, _docx_from_bytes env (env.fetch key) = .error e)
    (htex : env.textract = some f)
    (hshell : f (env.fetch key) = .shellError exc)
    (hmis : ∀ v, lookupKey cache.od key = some v → ¬ v.etag = observedEtag env key known) :
    get_document env cache key known = .ok
      (⟨observedEtag env key known, "doc",
          (_decode_possible_text env (env.fetch key)).getD (docErrText exc),
          _plain_text_html ((_decode_possible_text env (env.fetch key)).getD (docErrText exc)),
          ""⟩,
        LRU.set (LRU.get cache key).2 key
          ⟨observedEtag env key known, "doc",
            (_decode_possible_text env (env.fetch key)).getD (docErrText exc),
            _plain_text_html ((_decode_possible_text env (env.fetch key)).getD (docErrText exc)),
            ""⟩,
        ⟨true, true⟩) := by
  have hdt : lookupStr SUPPORTED_EXTS (extOf key) = some "doc" := by
    rw [hext]
    decide
  have hconv := @docConvert_doc_shell env (env.fetch key) exc f hdocx htex hshell
  cases hv : lookupKey cache.od key with
  | none =>
    rw [get_document_cold_of_none hdt hv, coldResult, hconv]
    have hget2 : (LRU.get cache key).2 = cache := by rw [LRU.get, hv]
    rw [hget2]
  | some v =>
    rw [get_document_cold_of_mismatch hdt hv (hmis v hv), coldResult, hconv]
    have hget2 : (LRU.get cache key).2
        = (⟨cache.cap, eraseKey cache.od key ++ [(key, v)]⟩ : LRUState CacheVal) := by
      rw [LRU.get, hv]
    rw [hget2]

/-! #### Claim C7 -/

/-- C7 counterexample: the object bytes are two ASCII spaces, which decode
under utf-8 with a 100%-printable preview — the claim's hypothesis holds —
yet `get_document` does not return that decoded text: the whitespace-only
text fails the non-blank check of `_decode_possible_text`, so the fixed error
text is returned (and no exception is raised). -/
theorem C7_counterexample :
    envC7.fetch "x.doc" = [32, 32] ∧
    envC7.utf8Decode (stripNulls [32, 32]) = some "  " ∧
    ¬ 5 * (((normalizeNewlines "  ".data).take 2000).filter
        (fun ch => envC7.printable ch || ch = '\n' || ch = '\t')).length <
      3 * ((normalizeNewlines "  ".data).take 2000).length ∧
    get_document envC7 ⟨2, []⟩ "x.doc" (some "E")
      = .ok (⟨"E", "doc", docErrText "boom", _plain_text_html (docErrText "boom"), ""⟩,
          ⟨2, [("x.doc", ⟨"E", "doc", docErrText "boom",
            _plain_text_html (docErrText "boom"), ""⟩)]⟩, ⟨true, true⟩) ∧
    docErrText "boom" ≠ "  " := by
  refine ⟨rfl, by decide, by decide, by decide, by decide⟩

/-- C7 (amended): for a `.doc` byte sequence whose DOCX attempt does not
succeed and whose legacy handler fails with a shell error, if the NUL-stripped
bytes decode under utf-8 (the first of the fixed ordered encodings) with at
least 60% of the first 2000 characters of the newline-normalized preview
printable **and a non-blank stripped text**, `get_document` returns that
cleaned decoded text as non-error plain text wrapped in the plain-text render
payload; and whenever any of the four ordered encodings passes all three
checks the last-resort decode produces some text rather than the error
fallback. -/
theorem C7_legacy_doc_degradation :
    (∀ (env : FormatEnv) (sample : List Nat) (dec : List Nat → Option String) (text : String),
      dec sample = some text →
      ¬ 5 * (((normalizeNewlines text.data).take 2000).filter
          (fun ch => env.printable ch || ch = '\n' || ch = '\t')).length <
        3 * ((normalizeNewlines text.data).take 2000).length →
      ((normalizeNewlines text.data).take 2000).length ≠ 0 →
      pyStrip (normalizeNewlines text.data) ≠ [] →
      decodeCandidate env sample dec
        = some (String.mk (pyStrip (normalizeNewlines text.data)))) ∧
    (∀ (env : FormatEnv) (cache : LRUState CacheVal) (key : String) (known : Option String)
      (exc t : String) (f : List Nat → TexResult),
      extOf key = ".doc" →
      (listIsPre ['P', 'K'] ((env.fetch key).map (fun b => Char.ofNat b)) = false ∨
        ∃ e, _docx_from_bytes env (env.fetch key) = .error e) →
      env.textract = some f →
      f (env.fetch key) = .shellError exc →
      ¬ env.fetch key = [] →
      ¬ stripNulls (env.fetch key) = [] →
      decodeCandidate env (stripNulls (env.fetch key)) env.utf8Decode = some t →
      (∀ v, lookupKey cache.od key = some v → ¬ v.etag = observedEtag env key known) →
      get_document env cache key known = .ok
        (⟨observedEtag env key known, "doc", t, _plain_text_html t, ""⟩,
          LRU.set (LRU.get cache key).2 key
            ⟨observedEtag env key known, "doc", t, _plain_text_html t, ""⟩,
          ⟨true, true⟩)) ∧
    (∀ (env : FormatEnv) (data : List Nat),
      ¬ data = [] → ¬ stripNulls data = [] →
      (decodeCandidate env (stripNulls data) env.utf8Decode ≠ none ∨
        decodeCandidate env (stripNulls data) env.gbkDecode ≠ none ∨
        decodeCandidate env (stripNulls data) env.gb2312Decode ≠ none ∨
        decodeCandidate env (stripNulls data) env.latin1Decode ≠ none) →
      _decode_possible_text env data ≠ none) := by
  refine ⟨?_, ?_, ?_⟩
  · intro env sample dec text hdec hratio htotal hclean
    exact decodeCandidate_some hdec hratio htotal hclean
  · intro env cache key known exc t f hext hdocx htex hshell hne hsne hcand hmis
    have hdec : _decode_possible_text env (env.fetch key) = some t :=
      decode_possible_utf8_first hne hsne hcand
    have h := get_document_doc_shell hext hdocx htex hshell hmis
    rw [hdec] at h
    simpa using h
  · intro env data hne hsne hany
    exact decode_possible_of_any hne hsne hany

/-- Witness for C7: under `envC7b` the bytes `hi` pass the utf-8 candidate
check, and `get_document` returns `hi` as non-error plain text. -/
theorem C7_legacy_doc_degradation_witness :
    decodeCandidate envC7b (stripNulls [104, 105]) envC7b.utf8Decode = some "hi" ∧
    get_document envC7b ⟨2, []⟩ "x.doc" (some "E")
      = .ok (⟨"E", "doc", "hi", _plain_text_html "hi", ""⟩,
          ⟨2, [("x.doc", ⟨"E", "doc", "hi", _plain_text_html "hi", ""⟩)]⟩,
          ⟨true, true⟩) := by
  constructor
  · have h := C7_legacy_doc_degradation.1 envC7b (stripNulls [104, 105]) envC7b.utf8Decode
      "hi" (by decide) (by decide) (by decide) (by decide)
    exact h.trans (by decide)
  · have h := C7_legacy_doc_degradation.2.1 envC7b ⟨2, []⟩ "x.doc" (some "E") "boom" "hi"
      (fun _ => .shellError "boom") (by decide) (Or.inl (by decide)) rfl rfl
      (by decide) (by decide) (by decide) (by decide)
    exact h.trans (by decide)

/-! #### Claim C10 -/

/-- C10: when the DOCX attempt fails, textract raises a shell error and no
encoding yields acceptable text, `get_document` does not raise: it returns
the fixed error text (`无法解析为有效的 Word 文档：` plus the exception text)
as the document's plain text and render payload, caches it under the observed
fingerprint, and that text is non-blank — so a subsequent sync run indexes it
as document content. -/
theorem C10_error_text_cached_and_indexed :
    (∀ (env : FormatEnv) (cache : LRUState CacheVal) (key : String) (known : Option String)
      (exc : String) (f : List Nat → TexResult),
      extOf key = ".doc" →
      (listIsPre ['P', 'K'] ((env.fetch key).map (fun b => Char.ofNat b)) = false ∨
        ∃ e, _docx_from_bytes env (env.fetch key) = .error e) →
      env.textract = some f →
      f (env.fetch key) = .shellError exc →
      _decode_possible_text env (env.fetch key) = none →
      (∀ v, lookupKey cache.od key = some v → ¬ v.etag = observedEtag env key known) →
      get_document env cache key known = .ok
        (⟨observedEtag env key known, "doc", docErrText exc,
            _plain_text_html (docErrText exc), ""⟩,
          LRU.set (LRU.get cache key).2 key
            ⟨observedEtag env key known, "doc", docErrText exc,
              _plain_text_html (docErrText exc), ""⟩,
          ⟨true, true⟩)) ∧
    (∀ exc : String, pyStrip (docErrText exc).data ≠ []) ∧
    (∀ (senv : SyncEnv) (doc : DocRef) (idx : List (String × EsRecord))
      (existing : List (String × String)) (text etag dt : String),
      senv.getDoc doc.key (some doc.etag) = .ok (etag, dt, text) →
      ¬ lookupStr existing doc.key = some doc.etag →
      ¬ pyStrip text.data = [] →
      senv.indexErr doc.key = none →
      syncDocs senv existing false [doc] idx 0 []
        = (upsertId idx doc.key ⟨doc.key, lastSegment doc.key, text, etag, dt⟩, 1, [])) := by
  refine ⟨?_, ?_, ?_⟩
  · intro env cache key known exc f hext hdocx htex hshell hdec hmis
    have h := get_document_doc_shell hext hdocx htex hshell hmis
    rw [hdec] at h
    simpa using h
  · intro exc
    apply pyStrip_ne_nil (docErrText exc).data '无'
    · rw [docErrText, String.data_append]
      exact List.mem_append.mpr (Or.inl (by decide))
    · rfl
  · intro senv doc idx existing text etag dt hget hskip hnb hidx
    rw [syncDocs]
    rw [if_neg (by simp [hskip])]
    rw [hget]
    simp only
    rw [if_neg hnb, hidx]
    rfl

/-- Witness for C10: the whole pipeline at the concrete environment — the
error text is returned and cached, is non-blank, and a one-document sync
whose reader is this `get_document` call indexes the error text as content. -/
theorem C10_error_text_cached_and_indexed_witness :
    get_document envC7 ⟨2, []⟩ "x.doc" (some "E")
      = .ok (⟨"E", "doc", docErrText "boom", _plain_text_html (docErrText "boom"), ""⟩,
          ⟨2, [("x.doc", ⟨"E", "doc", docErrText "boom",
            _plain_text_html (docErrText "boom"), ""⟩)]⟩, ⟨true, true⟩) ∧
    pyStrip (docErrText "boom").data ≠ [] ∧
    syncDocs
      ⟨true, .ok (), .ok,
        fun k e => (get_document envC7 ⟨2, []⟩ k e).map (fun r => (r.1.etag, r.1.docType,
          r.1.text)),
        fun _ => true, fun _ => none⟩
      [] false [⟨"x.doc", "E"⟩] [] 0 []
      = ([("x.doc", ⟨"x.doc", "x.doc", docErrText "boom", "E", "doc"⟩)], 1, []) := by
  refine ⟨?_, ?_, ?_⟩
  · have h := C10_error_text_cached_and_indexed.1 envC7 ⟨2, []⟩ "x.doc" (some "E") "boom"
      (fun _ => .shellError "boom") (by decide) (Or.inl (by decide)) rfl rfl (by decide)
      (by decide)
    exact h.trans (by decide)
  · exact C10_error_text_cached_and_indexed.2.1 "boom"
  · have h := C10_error_text_cached_and_indexed.2.2
      ⟨true, .ok (), .ok,
        fun k e => (get_document envC7 ⟨2, []⟩ k e).map (fun r => (r.1.etag, r.1.docType,
          r.1.text)),
        fun _ => true, fun _ => none⟩
      ⟨"x.doc", "E"⟩ [] [] (docErrText "boom") "E" "doc" (by decide) (by decide) (by decide)
      (by decide)
    exact h.trans (by decide)

/-! #### Claims C1 and C5: reconciler lemmas -/

theorem lookupKey_deleteId_other {l : List (String × EsRecord)} {id k : String}
    (hne : ¬ k = id) : lookupKey (deleteId l id) k = lookupKey l k := by
  induction l with
  | nil => rfl
  | cons p rest ih =>
    by_cases hp : p.1 = id
    · have h1 : deleteId (p :: rest) id = deleteId rest id := by
        simp [deleteId, List.filter_cons, hp]
      have hnk : ¬ p.1 = k := by
        intro hc
        exact hne (by rw [← hc, hp])
      have h2 : lookupKey (p :: rest) k = lookupKey rest k := by
        rw [lookupKey, List.find?_cons_of_neg _ (by simpa using hnk), lookupKey]
      rw [h1, h2]
      exact ih
    · have h1 : deleteId (p :: rest) id = p :: deleteId rest id := by
        simp [deleteId, List.filter_cons, hp]
      rw [h1]
      by_cases hk : p.1 = k
      · rw [lookupKey, List.find?_cons_of_pos _ (by simpa using hk),
          lookupKey, List.find?_cons_of_pos _ (by simpa using hk)]
      · rw [lookupKey, List.find?_cons_of_neg _ (by simpa using hk),
          lookupKey, List.find?_cons_of_neg _ (by simpa using hk)]
        exact ih

theorem find_replace_rec {l : List (String × EsRecord)} {id : String} (r : EsRecord)
    (h : (l.find? (fun p => p.1 = id)).isSome) :
    (l.map (fun p => if p.1 = id then (id, r) else p)).find? (fun p => p.1 = id)
      = some (id, r) := by
  induction l with
  | nil => simp at h
  | cons q rest ih =>
    by_cases hq : q.1 = id
    · simp [List.find?_cons, hq]
    · have h' : (rest.find? (fun p => p.1 = id)).isSome := by
        simpa [List.find?_cons, hq] using h
      simpa [List.find?_cons, hq] using ih h'

theorem find_replace_rec_other {l : List (String × EsRecord)} {id k : String} (r : EsRecord)
    (hne : ¬ k = id) :
    (l.map (fun p => if p.1 = id then (id, r) else p)).find? (fun p => p.1 = k)
      = l.find? (fun p => p.1 = k) := by
  have hne' : ¬ id = k := fun hh => hne hh.symm
  induction l with
  | nil => rfl
  | cons q rest ih =>
    by_cases hq : q.1 = id
    · have hqq : ¬ q.1 = k := by rw [hq]; exact hne'
      simp [List.find?_cons, hq, hne', hqq, ih]
    · by_cases hk : q.1 = k
      · simp [List.find?_cons, hq, hk, hne]
      · simp [List.find?_cons, hq, hk, ih]

theorem lookupKey_upsert_self (l : List (String × EsRecord)) (id : String) (r : EsRecord) :
    lookupKey (upsertId l id r) id = some r := by
  rw [upsertId]
  by_cases h : (l.find? (fun p => p.1 = id)).isSome
  · rw [if_pos h, lookupKey, find_replace_rec r h]
    rfl
  · rw [if_neg h, lookupKey, List.find?_append]
    have hn : l.find? (fun p => p.1 = id) = none := by
      cases hf : l.find? (fun p => p.1 = id) with
      | none => rfl
      | some x => rw [hf] at h; simp at h
    simp [hn, List.find?_cons]

theorem lookupKey_upsert_other (l : List (String × EsRecord)) (id k : String) (r : EsRecord)
    (hne : ¬ k = id) : lookupKey (upsertId l id r) k = lookupKey l k := by
  rw [upsertId]
  by_cases h : (l.find? (fun p => p.1 = id)).isSome
  · rw [if_pos h, lookupKey, find_replace_rec_other r hne, lookupKey]
  · rw [if_neg h, lookupKey, List.find?_append, lookupKey]
    have hne' : ¬ id = k := fun hh => hne hh.symm
    have hfind : ([(id, r)].find? (fun p => p.1 = k)) = none := by
      simp [List.find?_cons, hne']
    rw [hfind]
    cases l.find? (fun p => p.1 = k) <;> rfl

theorem mem_upsert {l : List (String × EsRecord)} {id : String} {r : EsRecord}
    {q : String × EsRecord} (h : q ∈ upsertId l id r) : q ∈ l ∨ q.1 = id := by
  rw [upsertId] at h
  by_cases hf : (l.find? (fun p => p.1 = id)).isSome
  · rw [if_pos hf] at h
    rcases List.mem_map.mp h with ⟨p, hp, hpq⟩
    by_cases hpid : p.1 = id
    · right
      rw [← hpq]
      simp [hpid]
    · left
      rw [← hpq]
      simpa [hpid] using hp
  · rw [if_neg hf] at h
    rcases List.mem_append.mp h with hmem | hmem
    · exact Or.inl hmem
    · right
      rcases List.mem_singleton.mp hmem with rfl
      rfl

theorem lookupStr_map_etag (l : List (String × EsRecord)) (k : String) :
    lookupStr (l.map (fun p => (p.1, p.2.etag))) k
      = (lookupKey l k).map (fun r => r.etag) := by
  induction l with
  | nil => rfl
  | cons p rest ih =>
    by_cases hp : p.1 = k
    · rw [lookupStr, lookupKey]
      simp [List.find?_cons, hp]
    · rw [lookupStr, lookupKey] at *
      simp only [List.map_cons, List.find?_cons, hp]
      simpa [hp] using ih

theorem mem_syncDeletes (env : SyncEnv) :
    ∀ (ids : List String) (idx : List (String × EsRecord)) (c : Nat)
      (p : String × EsRecord),
      p ∈ (syncDeletes env ids idx c).1 ↔
        (p ∈ idx ∧ ¬ (p.1 ∈ ids ∧ env.deleteOk p.1 = true)) := by
  intro ids
  induction ids with
  | nil =>
    intro idx c p
    simp [syncDeletes]
  | cons id rest ih =>
    intro idx c p
    rw [syncDeletes]
    by_cases hdel : env.deleteOk id = true
    · rw [if_pos hdel, ih]
      have hmemdel : p ∈ deleteId idx id ↔ (p ∈ idx ∧ ¬ p.1 = id) := by
        rw [deleteId, List.mem_filter]
        simp
      rw [hmemdel]
      constructor
      · rintro ⟨⟨hmem, hne⟩, hrest⟩
        refine ⟨hmem, ?_⟩
        rintro ⟨hin, hok⟩
        rcases List.mem_cons.mp hin with heq | hin'
        · exact hne heq
        · exact hrest ⟨hin', hok⟩
      · rintro ⟨hmem, hnot⟩
        by_cases hne : p.1 = id
        · exact absurd ⟨List.mem_cons.mpr (Or.inl hne), hne ▸ hdel⟩ hnot
        · exact ⟨⟨hmem, hne⟩, fun ⟨hin, hok⟩ => hnot ⟨List.mem_cons.mpr (Or.inr hin), hok⟩⟩
    · rw [if_neg hdel, ih]
      constructor
      · rintro ⟨hmem, hrest⟩
        refine ⟨hmem, ?_⟩
        rintro ⟨hin, hok⟩
        rcases List.mem_cons.mp hin with heq | hin'
        · exact hdel (heq ▸ hok)
        · exact hrest ⟨hin', hok⟩
      · rintro ⟨hmem, hnot⟩
        exact ⟨hmem, fun ⟨hin, hok⟩ => hnot ⟨List.mem_cons.mpr (Or.inr hin), hok⟩⟩

theorem syncDeletes_no_removes (env : SyncEnv) :
    ∀ (ids : List String) (idx : List (String × EsRecord)) (c : Nat),
      (∀ id ∈ ids, env.deleteOk id = false) → (syncDeletes env ids idx c).2 = c := by
  intro ids
  induction ids with
  | nil => intro idx c _; rfl
  | cons id rest ih =>
    intro idx c h
    rw [syncDeletes]
    rw [if_neg (by rw [h id (List.mem_cons_self id rest)]; simp)]
    exact ih idx c (fun x hx => h x (List.mem_cons_of_mem _ hx))

theorem syncDeletes_preserve (env : SyncEnv) :
    ∀ (ids : List String) (idx : List (String × EsRecord)) (c : Nat) (k : String),
      k ∉ ids → lookupKey ((syncDeletes env ids idx c).1) k = lookupKey idx k := by
  intro ids
  induction ids with
  | nil => intro idx c k _; rfl
  | cons id rest ih =>
    intro idx c k hk
    have hne : ¬ k = id := fun h => hk (List.mem_cons.mpr (Or.inl h))
    have hrest : k ∉ rest := fun h => hk (List.mem_cons.mpr (Or.inr h))
    rw [syncDeletes]
    by_cases hdel : env.deleteOk id = true
    · rw [if_pos hdel, ih _ _ _ hrest, lookupKey_deleteId_other hne]
    · rw [if_neg hdel, ih _ _ _ hrest]

theorem mem_syncDocs (env : SyncEnv) (existing : List (String × String)) (force : Bool) :
    ∀ (docs : List DocRef) (idx : List (String × EsRecord)) (u : Nat) (e : List String)
      (p : String × EsRecord),
      p ∈ (syncDocs env existing force docs idx u e).1 →
      p ∈ idx ∨ p.1 ∈ docs.map DocRef.key := by
  intro docs
  induction docs with
  | nil =>
    intro idx u e p h
    exact Or.inl h
  | cons doc rest ih =>
    intro idx u e p h
    rw [syncDocs] at h
    by_cases hskip : ¬ force ∧ lookupStr existing doc.key = some doc.etag
    · rw [if_pos hskip] at h
      rcases ih _ _ _ _ h with hm | hm
      · exact Or.inl hm
      · exact Or.inr (List.mem_cons.mpr (Or.inr hm))
    · rw [if_neg hskip] at h
      cases hget : env.getDoc doc.key (some doc.etag) with
      | error exc =>
        rw [hget] at h
        rcases ih _ _ _ _ h with hm | hm
        · exact Or.inl hm
        · exact Or.inr (List.mem_cons.mpr (Or.inr hm))
      | ok r =>
        rw [hget] at h
        dsimp only at h
        by_cases hblank : pyStrip r.2.2.data = []
        · rw [if_pos hblank] at h
          rcases ih _ _ _ _ h with hm | hm
          · exact Or.inl hm
          · exact Or.inr (List.mem_cons.mpr (Or.inr hm))
        · rw [if_neg hblank] at h
          cases hidx : env.indexErr doc.key with
          | none =>
            rw [hidx] at h
            rcases ih _ _ _ _ h with hm | hm
            · rcases mem_upsert hm with hm' | hm'
              · exact Or.inl hm'
              · exact Or.inr (List.mem_cons.mpr (Or.inl hm'))
            · exact Or.inr (List.mem_cons.mpr (Or.inr hm))
          | some exc =>
            rw [hidx] at h
            rcases ih _ _ _ _ h with hm | hm
            · exact Or.inl hm
            · exact Or.inr (List.mem_cons.mpr (Or.inr hm))

theorem syncDocs_preserve (env : SyncEnv) (existing : List (String × String)) (force : Bool) :
    ∀ (docs : List DocRef) (idx : List (String × EsRecord)) (u : Nat) (e : List String)
      (k : String), k ∉ docs.map DocRef.key →
      lookupKey ((syncDocs env existing force docs idx u e).1) k = lookupKey idx k := by
  intro docs
  induction docs with
  | nil => intro idx u e k _; rfl
  | cons doc rest ih =>
    intro idx u e k hk
    have hne : ¬ k = doc.key := fun h => hk (by simp [h])
    have hrest : k ∉ rest.map DocRef.key := fun h => hk (by simp [h])
    rw [syncDocs]
    by_cases hskip : ¬ force ∧ lookupStr existing doc.key = some doc.etag
    · rw [if_pos hskip, ih _ _ _ _ hrest]
    · rw [if_neg hskip]
      cases hget : env.getDoc doc.key (some doc.etag) with
      | error exc => rw [ih _ _ _ _ hrest]
      | ok r =>
        dsimp only
        by_cases hblank : pyStrip r.2.2.data = []
        · rw [if_pos hblank, ih _ _ _ _ hrest]
        · rw [if_neg hblank]
          cases hidx : env.indexErr doc.key with
          | none => rw [ih _ _ _ _ hrest, lookupKey_upsert_other _ _ _ _ hne]
          | some exc => rw [ih _ _ _ _ hrest]

theorem syncDocs_no_updates (env : SyncEnv) (existing : List (String × String)) :
    ∀ (docs : List DocRef) (idx : List (String × EsRecord)) (u : Nat) (e : List String),
      (∀ doc ∈ docs, lookupStr existing doc.key = some doc.etag ∨
        (∀ r', env.getDoc doc.key (some doc.etag) = .ok r' →
          (pyStrip r'.2.2.data = [] ∨ ¬ env.indexErr doc.key = none))) →
      (syncDocs env existing false docs idx u e).2.1 = u := by
  intro docs
  induction docs with
  | nil => intro idx u e _; rfl
  | cons doc rest ih =>
    intro idx u e h
    have hdoc := h doc (List.mem_cons_self doc rest)
    have hrest := fun x hx => h x (List.mem_cons_of_mem _ hx)
    rw [syncDocs]
    by_cases hskip : lookupStr existing doc.key = some doc.etag
    · rw [if_pos ⟨by simp, hskip⟩]
      exact ih _ _ _ hrest
    · rw [if_neg (by rintro ⟨-, hc⟩; exact hskip hc)]
      rcases hdoc with hc | hnoinc
      · exact absurd hc hskip
      · cases hget : env.getDoc doc.key (some doc.etag) with
        | error exc => exact ih _ _ _ hrest
        | ok r =>
          dsimp only
          rcases hnoinc r hget with hblank | hidx
          · rw [if_pos hblank]
            exact ih _ _ _ hrest
          · by_cases hblank2 : pyStrip r.2.2.data = []
            · rw [if_pos hblank2]
              exact ih _ _ _ hrest
            · rw [if_neg hblank2]
              cases hi : env.indexErr doc.key with
              | none => exact absurd hi hidx
              | some exc => exact ih _ _ _ hrest

/-- After the first run's update loop, every document that would be
re-indexable (its reader succeeds with non-blank text and its upsert would
succeed) ends up recorded with exactly its listing fingerprint — provided the
accumulator already satisfies that whenever the loop skips the document. -/
theorem syncDocs_final_etag (env : SyncEnv) (existing : List (String × String))
    (hgd : ∀ (k e : String) (r' : String × String × String),
      env.getDoc k (some e) = .ok r' → r'.1 = e) :
    ∀ (docs : List DocRef) (idx : List (String × EsRecord)) (u : Nat) (e : List String)
      (doc : DocRef), (docs.map DocRef.key).Nodup → doc ∈ docs →
      (∃ r', env.getDoc doc.key (some doc.etag) = .ok r' ∧ ¬ pyStrip r'.2.2.data = [] ∧
        env.indexErr doc.key = none) →
      (lookupStr existing doc.key = some doc.etag →
        (lookupKey idx doc.key).map (fun rec => rec.etag) = some doc.etag) →
      (lookupKey ((syncDocs env existing false docs idx u e).1) doc.key).map
        (fun rec => rec.etag) = some doc.etag := by
  intro docs
  induction docs with
  | nil =>
    intro idx u e doc _ hmem
    simp at hmem
  | cons doc' rest ih =>
    intro idx u e doc hnd hmem hcond hrel
    have hnd2 : doc'.key ∉ rest.map DocRef.key ∧ (rest.map DocRef.key).Nodup := by
      rw [List.map_cons, List.nodup_cons] at hnd
      exact hnd
    have hnd' := hnd2.2
    have hhead := hnd2.1
    rcases List.mem_cons.mp hmem with rfl | hmem'
    · -- the head is the document of interest
      rw [syncDocs]
      by_cases hskip : lookupStr existing doc.key = some doc.etag
      · rw [if_pos ⟨by simp, hskip⟩]
        rw [syncDocs_preserve env existing false rest idx u e doc.key hhead]
        exact hrel hskip
      · rw [if_neg (by rintro ⟨-, hc⟩; exact hskip hc)]
        rcases hcond with ⟨r', hget, hblank, hidx⟩
        rw [hget]
        dsimp only
        rw [if_neg hblank, hidx]
        rw [syncDocs_preserve env existing false rest _ _ _ doc.key hhead]
        rw [lookupKey_upsert_self]
        have := hgd doc.key doc.etag r' hget
        simp [this]
    · -- the document of interest sits in the tail
      have hne : ¬ doc.key = doc'.key := by
        intro hc
        exact hhead (hc ▸ List.mem_map_of_mem DocRef.key hmem')
      rw [syncDocs]
      by_cases hskip : ¬ false = true ∧ lookupStr existing doc'.key = some doc'.etag
      · rw [if_pos hskip]
        exact ih _ _ _ doc hnd' hmem' hcond hrel
      · rw [if_neg hskip]
        cases hget : env.getDoc doc'.key (some doc'.etag) with
        | error exc => exact ih _ _ _ doc hnd' hmem' hcond hrel
        | ok r =>
          dsimp only
          by_cases hblank : pyStrip r.2.2.data = []
          · rw [if_pos hblank]
            exact ih _ _ _ doc hnd' hmem' hcond hrel
          · rw [if_neg hblank]
            cases hidx : env.indexErr doc'.key with
            | none =>
              apply ih _ _ _ doc hnd' hmem' hcond
              intro hlk
              rw [lookupKey_upsert_other _ _ _ _ hne]
              exact hrel hlk
            | some exc => exact ih _ _ _ doc hnd' hmem' hcond hrel

/-- The successful path of `sync_elasticsearch` reduces to `syncMain` over the
existing `(id, etag)` map read from the index. -/
theorem sync_main_path (env : SyncEnv) (idx : List (String × EsRecord)) (docs : List DocRef)
    (force : Bool) (hen : env.esEnabled = true) (hd : ¬ docs = [])
    (hro : env.readOutcome = .ok) (uu : Unit) (hc : env.connect = .ok uu) :
    sync_elasticsearch env idx docs force
      = syncMain env idx docs force (idx.map (fun p => (p.1, p.2.etag))) := by
  rw [sync_elasticsearch, if_neg (by simp [hen]), if_neg hd, hc, hro]

/-! #### Claim C1 -/

/-- C1 counterexample: with a non-empty index and the empty listing, the run
returns the completion status for the empty listing (`索引同步完成：无可用文档`)
without deleting anything — the stale key `a` survives although its delete was
never attempted, let alone reported as an error. -/
theorem C1_counterexample :
    sync_elasticsearch envC1 [("a", recA)] [] false = (.noDocs, [("a", recA)]) ∧
    ("a", recA).1 ∈ ([("a", recA)] : List (String × EsRecord)).map Prod.fst ∧
    ¬ ("a", recA).1 ∈ ([] : List DocRef).map (fun d => d.key) := by
  refine ⟨by decide, by decide, by decide⟩

/-- C1 (amended): for runs that reach the reconciliation loop (non-empty
listing, reachable backend, readable index), every surviving index entry
either belongs to the current listing or was a stale entry whose individual
delete call raised (such failures are silently swallowed, not reported), and
every stale entry whose delete call succeeds is gone from the index.  With an
empty listing the run returns a completion status immediately and deletes
nothing. -/
theorem C1_reconciler_stale_deletion :
    ∀ (env : SyncEnv) (idx : List (String × EsRecord)) (docs : List DocRef) (force : Bool)
      (u r : Nat) (errs : List String) (idx' : List (String × EsRecord)),
      env.readOutcome = .ok →
      sync_elasticsearch env idx docs force = (.done u r errs, idx') →
      (∀ p ∈ idx', p.1 ∈ docs.map (fun d => d.key) ∨
        (p ∈ idx ∧ env.deleteOk p.1 = false)) ∧
      (∀ p ∈ idx, p.1 ∉ docs.map (fun d => d.key) → env.deleteOk p.1 = true →
        ∀ q ∈ idx', ¬ q.1 = p.1) := by
  intro env idx docs force u r errs idx' hro hrun
  by_cases hen : env.esEnabled = true
  swap
  · rw [sync_elasticsearch, if_pos hen] at hrun
    exact absurd (congrArg Prod.fst hrun) (by simp)
  by_cases hd : docs = []
  · rw [sync_elasticsearch, if_neg (by simp [hen]), if_pos hd] at hrun
    exact absurd (congrArg Prod.fst hrun) (by simp)
  cases hc : env.connect with
  | error e =>
    rw [sync_elasticsearch, if_neg (by simp [hen]), if_neg hd, hc] at hrun
    exact absurd (congrArg Prod.fst hrun) (by simp)
  | ok uu =>
    rw [sync_main_path env idx docs force hen hd hro uu hc] at hrun
    have hidx' : idx' = (syncDocs env (idx.map (fun p => (p.1, p.2.etag))) force docs
        (syncDeletes env
          (((idx.map (fun p => (p.1, p.2.etag))).map (fun p => p.1)).filter
            (fun k => ¬ k ∈ docs.map (fun d => d.key))) idx 0).1 0 []).1 :=
      (congrArg Prod.snd hrun).symm
    constructor
    · intro p hp
      rw [hidx'] at hp
      rcases mem_syncDocs env _ force docs _ 0 [] p hp with hmem | hk
      · rcases (mem_syncDeletes env _ idx 0 p).mp hmem with ⟨hpidx, hnot⟩
        by_cases hdk : p.1 ∈ docs.map (fun d => d.key)
        · exact Or.inl hdk
        · right
          refine ⟨hpidx, ?_⟩
          by_cases hdel : env.deleteOk p.1 = true
          · exfalso
            apply hnot
            refine ⟨?_, hdel⟩
            rw [List.mem_filter]
            constructor
            · simpa [List.map_map] using List.mem_map_of_mem Prod.fst hpidx
            · simpa using hdk
          · simpa using hdel
      · exact Or.inl hk
    · intro p hpidx hpk hdel q hq hqp
      rw [hidx'] at hq
      rcases mem_syncDocs env _ force docs _ 0 [] q hq with hmem | hk
      · rcases (mem_syncDeletes env _ idx 0 q).mp hmem with ⟨-, hnot⟩
        apply hnot
        refine ⟨?_, by rw [hqp]; exact hdel⟩
        rw [List.mem_filter, hqp]
        constructor
        · simpa [List.map_map] using List.mem_map_of_mem Prod.fst hpidx
        · simpa using hpk
      · exact hpk (hqp ▸ hk)

/-- Witness for C1 (amended): a run with one listed document, a stale entry
`a` whose delete succeeds and a stale entry `b` whose delete raises: `a` is
gone, `b` survives as a silently-skipped failed delete. -/
theorem C1_reconciler_stale_deletion_witness :
    sync_elasticsearch envC1 idxC1 docsC1 false
      = (.done 0 1 ["k: x"], [("b", recB), ("k", recK)]) ∧
    (("b", recB).1 ∈ docsC1.map (fun d => d.key) ∨
      (("b", recB) ∈ idxC1 ∧ envC1.deleteOk ("b", recB).1 = false)) ∧
    (∀ q ∈ [("b", recB), ("k", recK)], ¬ q.1 = ("a", recA).1) := by
  have hrun : sync_elasticsearch envC1 idxC1 docsC1 false
      = (.done 0 1 ["k: x"], [("b", recB), ("k", recK)]) := by decide
  have h := C1_reconciler_stale_deletion envC1 idxC1 docsC1 false 0 1 ["k: x"]
    [("b", recB), ("k", recK)] rfl hrun
  exact ⟨hrun, h.1 ("b", recB) (by decide),
    h.2 ("a", recA) (by decide) (by decide) (by decide)⟩

/-! #### Claim C5 -/

/-- C5: reconciliation is idempotent.  For a listing with distinct keys,
a reader that reports back the handed fingerprint (which `get_document` does
when called with `known_etag`), and a readable index, a second `sync` run with
`force = false`, the same listing and no external index mutation reports
`updatedCount = 0` and `removedCount = 0`. -/
theorem C5_sync_idempotent :
    ∀ (env : SyncEnv) (idx : List (String × EsRecord)) (docs : List DocRef),
      (docs.map (fun d => d.key)).Nodup →
      (∀ (k e : String) (r' : String × String × String),
        env.getDoc k (some e) = .ok r' → r'.1 = e) →
      env.readOutcome = .ok →
      updatedCount (sync_elasticsearch env (sync_elasticsearch env idx docs false).2
          docs false).1 = 0 ∧
      removedCount (sync_elasticsearch env (sync_elasticsearch env idx docs false).2
          docs false).1 = 0 := by
  intro env idx docs hnd hgd hro
  by_cases hen : env.esEnabled = true
  swap
  · have h1 : ∀ (I : List (String × EsRecord)),
        sync_elasticsearch env I docs false = (.disabled, I) := by
      intro I
      rw [sync_elasticsearch, if_pos hen]
    rw [h1, h1]
    exact ⟨rfl, rfl⟩
  by_cases hd : docs = []
  · have h1 : ∀ (I : List (String × EsRecord)),
        sync_elasticsearch env I docs false = (.noDocs, I) := by
      intro I
      rw [sync_elasticsearch, if_neg (by simp [hen]), if_pos hd]
    rw [h1, h1]
    exact ⟨rfl, rfl⟩
  cases hc : env.connect with
  | error e =>
    have h1 : ∀ (I : List (String × EsRecord)),
        sync_elasticsearch env I docs false = (.connectFailed e, I) := by
      intro I
      rw [sync_elasticsearch, if_neg (by simp [hen]), if_neg hd, hc]
    rw [h1, h1]
    exact ⟨rfl, rfl⟩
  | ok uu =>
    have hpath := fun (I : List (String × EsRecord)) =>
      sync_main_path env I docs false hen hd hro uu hc
    rw [hpath, hpath]
    -- the index state after the first run
    have hidx1 : (syncMain env idx docs false (idx.map (fun p => (p.1, p.2.etag)))).2
        = (syncDocs env (idx.map (fun p => (p.1, p.2.etag))) false docs
            (syncDeletes env
              (((idx.map (fun p => (p.1, p.2.etag))).map (fun p => p.1)).filter
                (fun k => ¬ k ∈ docs.map (fun d => d.key))) idx 0).1 0 []).1 := rfl
    constructor
    · -- updatedCount of the second run
      show (syncDocs env _ false docs _ 0 []).2.1 = 0
      apply syncDocs_no_updates
      intro doc hdoc
      by_cases hcond : ∃ r', env.getDoc doc.key (some doc.etag) = .ok r' ∧
          ¬ pyStrip r'.2.2.data = [] ∧ env.indexErr doc.key = none
      · left
        rw [lookupStr_map_etag]
        rw [hidx1]
        apply syncDocs_final_etag env _ hgd docs _ 0 [] doc hnd hdoc hcond
        intro hlk
        have hkeynot : doc.key ∉
            ((idx.map (fun p => (p.1, p.2.etag))).map (fun p => p.1)).filter
              (fun k => ¬ k ∈ docs.map (fun d => d.key)) := by
          intro hmem
          rcases List.mem_filter.mp hmem with ⟨-, hdec⟩
          have hnin : ¬ doc.key ∈ docs.map (fun d => d.key) := by simpa using hdec
          exact hnin (List.mem_map_of_mem (fun d => d.key) hdoc)
        rw [syncDeletes_preserve env _ idx 0 doc.key hkeynot]
        rw [lookupStr_map_etag] at hlk
        exact hlk
      · right
        intro r' hok
        by_contra hcon
        push_neg at hcon
        exact hcond ⟨r', hok, hcon.1, hcon.2⟩
    · -- removedCount of the second run
      show (syncDeletes env _ _ 0).2 = 0
      apply syncDeletes_no_removes
      intro id hid
      rcases List.mem_filter.mp hid with ⟨hmem, hdec⟩
      have hnin : id ∉ docs.map (fun d => d.key) := by simpa using hdec
      have hmem' : id ∈ ((syncMain env idx docs false
          (idx.map (fun p => (p.1, p.2.etag)))).2).map Prod.fst := by
        simpa [List.map_map] using hmem
      rcases List.mem_map.mp hmem' with ⟨p, hp, hpid⟩
      rw [hidx1] at hp
      rcases mem_syncDocs env _ false docs _ 0 [] p hp with hmemdel | hk
      · rcases (mem_syncDeletes env _ idx 0 p).mp hmemdel with ⟨hpidx, hnot⟩
        by_cases hdel : env.deleteOk p.1 = true
        · exfalso
          apply hnot
          refine ⟨?_, hdel⟩
          rw [List.mem_filter]
          constructor
          · simpa [List.map_map] using List.mem_map_of_mem Prod.fst hpidx
          · rw [hpid]
            simpa using hnin
        · rw [← hpid]
          simpa using hdel
      · exact absurd (hpid ▸ hk) hnin

/-- Witness for C5: a healthy backend, a two-document listing (one already
up to date, one changed) and an index holding one stale entry.  The first run
updates one document and removes the stale entry; the second run reports zero
updates and zero removals. -/
theorem C5_sync_idempotent_witness :
    sync_elasticsearch envC5 [("a", recA), ("b", recB), ("k", recK)]
        [⟨"a", "ea"⟩, ⟨"k", "E"⟩] false
      = (.done 1 1 [], [("a", recA), ("k", ⟨"k", "k", "t", "E", "doc"⟩)]) ∧
    updatedCount (sync_elasticsearch envC5
        (sync_elasticsearch envC5 [("a", recA), ("b", recB), ("k", recK)]
          [⟨"a", "ea"⟩, ⟨"k", "E"⟩] false).2 [⟨"a", "ea"⟩, ⟨"k", "E"⟩] false).1 = 0 ∧
    removedCount (sync_elasticsearch envC5
        (sync_elasticsearch envC5 [("a", recA), ("b", recB), ("k", recK)]
          [⟨"a", "ea"⟩, ⟨"k", "E"⟩] false).2 [⟨"a", "ea"⟩, ⟨"k", "E"⟩] false).1 = 0 := by
  refine ⟨by decide, ?_⟩
  have h := C5_sync_idempotent envC5 [("a", recA), ("b", recB), ("k", recK)]
    [⟨"a", "ea"⟩, ⟨"k", "E"⟩]
    (by decide)
    (by
      intro k e r' hok
      rw [show envC5.getDoc k (some e) = .ok (e, "doc", "t") from rfl] at hok
      injection hok with h2
      rw [← h2])
    rfl
  exact h

end MkViewer
